import Mathlib

/-!
Verification of the ObsidianTools repository core: the vault scanning,
file-metadata extraction, and bulk-mutation pipeline.

The JavaScript source is shallowly embedded: strings are `List Char`,
JavaScript objects (insertion-ordered string-keyed maps) are association
lists updated in place by `objInsert`, JavaScript numbers reachable from
the YAML-like parser are exact decimal values in the canonical form
`m * 10 ^ e` with `10 ∤ m` (IEEE rounding is not modelled; it is invisible
to the statements proved here, which never compare more than 15 significant
digits), and the filesystem is an explicit tree or list of paths.
-/

namespace ObsidianTools

/-- The string's characters; all embedded functions work on `List Char`. -/
def str (s : String) : List Char := s.data

/-- The nine characters removed by `FileUtils.sanitizeFilename`
(src/utils/file-utils.js line 10). -/
def specialChars : List Char := ['<', '>', ':', '"', '/', '\\', '|', '?', '*']

def isSpecialChar (c : Char) : Bool := specialChars.contains c

/-- JavaScript's whitespace class: the characters matched by the regex
class backslash-s and trimmed by String.trim. -/
def isJsWs (c : Char) : Bool :=
  c = ' ' || c = '\t' || c = '\n' || c = '\r' || c = Char.ofNat 0xb ||
  c = Char.ofNat 0xc || c = Char.ofNat 0xa0 || c = Char.ofNat 0x1680 ||
  (0x2000 ≤ c.toNat && c.toNat ≤ 0x200a) || c = Char.ofNat 0x2028 ||
  c = Char.ofNat 0x2029 || c = Char.ofNat 0x202f || c = Char.ofNat 0x205f ||
  c = Char.ofNat 0x3000 || c = Char.ofNat 0xfeff

/-- Replacing every run of characters satisfying `p` by a single hyphen:
the effect of `.replace(/X+/g, '-')` for a character class X. -/
def collapseRuns (p : Char → Bool) : List Char → List Char
  | [] => []
  | [c] => if p c then ['-'] else [c]
  | c :: d :: rest =>
    if p c then
      (if p d then collapseRuns p (d :: rest) else '-' :: collapseRuns p (d :: rest))
    else c :: collapseRuns p (d :: rest)

/-- One leading hyphen removed, as the leading alternative of
`.replace(/^-|-$/g, '')`. -/
def dropLeadHyphen (l : List Char) : List Char :=
  if l.head? = some '-' then l.tail else l

/-- `.replace(/^-|-$/g, '')`: at most one leading and one trailing hyphen
removed (the trailing side handled on the reversed list). -/
def trimEdgeHyphens (l : List Char) : List Char :=
  (dropLeadHyphen ((dropLeadHyphen l).reverse)).reverse

/-- `FileUtils.sanitizeFilename` (src/utils/file-utils.js lines 8-14):
replace each forbidden character with a hyphen, replace whitespace runs
with a hyphen, collapse hyphen runs, trim edge hyphens. -/
def sanitizeFilename (l : List Char) : List Char :=
  trimEdgeHyphens
    (collapseRuns (· = '-')
      (collapseRuns isJsWs
        (l.map (fun c => if isSpecialChar c then '-' else c))))

/-- No two adjacent characters of the list both satisfy `p`. -/
def noAdjacent (p : Char → Bool) : List Char → Bool
  | a :: b :: r => (!(p a && p b)) && noAdjacent p (b :: r)
  | _ => true

theorem mem_collapseRuns (p : Char → Bool) :
    ∀ l c, c ∈ collapseRuns p l → c = '-' ∨ (c ∈ l ∧ p c = false)
  | [], c, h => by simp [collapseRuns] at h
  | [a], c, h => by
      cases hp : p a with
      | true =>
          simp [collapseRuns, hp] at h
          exact Or.inl h
      | false =>
          simp [collapseRuns, hp] at h
          exact Or.inr ⟨by simp [h], by simp [h, hp]⟩
  | a :: b :: r, c, h => by
      cases hpa : p a with
      | true =>
          cases hpb : p b with
          | true =>
              simp only [collapseRuns, hpa, hpb, if_true] at h
              rcases mem_collapseRuns p (b :: r) c h with h1 | h2
              · exact Or.inl h1
              · exact Or.inr ⟨List.mem_cons_of_mem _ h2.1, h2.2⟩
          | false =>
              simp [collapseRuns, hpa, hpb] at h
              rcases h with h1 | h1
              · exact Or.inl h1
              · rcases mem_collapseRuns p (b :: r) c h1 with h2 | h3
                · exact Or.inl h2
                · exact Or.inr ⟨List.mem_cons_of_mem _ h3.1, h3.2⟩
      | false =>
          simp [collapseRuns, hpa] at h
          rcases h with h1 | h1
          · exact Or.inr ⟨by simp [h1], by subst h1; simp [hpa]⟩
          · rcases mem_collapseRuns p (b :: r) c h1 with h2 | h3
            · exact Or.inl h2
            · exact Or.inr ⟨List.mem_cons_of_mem _ h3.1, h3.2⟩

theorem collapseRuns_head (p : Char → Bool) :
    ∀ l c, (collapseRuns p l).head? = some c → c = '-' ∨ (p c = false)
  | [], c, h => by simp [collapseRuns] at h
  | [a], c, h => by
      cases hp : p a with
      | true =>
          simp [collapseRuns, hp] at h
          exact Or.inl h.symm
      | false =>
          simp [collapseRuns, hp] at h
          exact Or.inr (h ▸ hp)
  | a :: b :: r, c, h => by
      cases hpa : p a with
      | true =>
          cases hpb : p b with
          | true =>
              simp only [collapseRuns, hpa, hpb, if_true] at h
              exact collapseRuns_head p (b :: r) c h
          | false =>
              simp [collapseRuns, hpa, hpb] at h
              exact Or.inl h.symm
      | false =>
          simp [collapseRuns, hpa] at h
          exact Or.inr (h ▸ hpa)
theorem collapseRuns_head_of_not (p : Char → Bool) {b : Char} (r : List Char)
    (hpb : p b = false) : (collapseRuns p (b :: r)).head? = some b := by
  cases r with
  | nil => simp [collapseRuns, hpb]
  | cons x xs => simp [collapseRuns, hpb]

theorem noAdjacent_collapseRuns (p : Char → Bool) (hp : p '-' = true) :
    ∀ l, noAdjacent p (collapseRuns p l) = true
  | [] => by simp [collapseRuns, noAdjacent]
  | [a] => by cases h : p a <;> simp [collapseRuns, noAdjacent, h]
  | a :: b :: r => by
      have ih := noAdjacent_collapseRuns p hp (b :: r)
      cases hpa : p a with
      | true =>
          cases hpb : p b with
          | true =>
              simpa only [collapseRuns, hpa, hpb, if_true] using ih
          | false =>
              simp only [collapseRuns, hpa, hpb, if_true, Bool.false_eq_true,
                if_false]
              have hhead := collapseRuns_head_of_not p r hpb
              match hcr : collapseRuns p (b :: r) with
              | [] => simp [noAdjacent]
              | x :: xs =>
                  have hx : x = b := by
                    rw [hcr] at hhead; simpa using hhead
                  subst hx
                  simp only [noAdjacent, hpb, Bool.and_false, Bool.not_false,
                    Bool.true_and]
                  rw [hcr] at ih; exact ih
      | false =>
          simp only [collapseRuns, hpa, Bool.false_eq_true, if_false]
          match hcr : collapseRuns p (b :: r) with
          | [] => simp [noAdjacent]
          | x :: xs =>
              simp only [noAdjacent, hpa, Bool.false_and, Bool.not_false,
                Bool.true_and]
              rw [hcr] at ih; exact ih

theorem collapseRuns_eq_self (p : Char → Bool) :
    ∀ l, noAdjacent p l = true → (∀ c ∈ l, p c = true → c = '-') →
      collapseRuns p l = l
  | [], _, _ => rfl
  | [a], _, hm => by
      cases hp : p a with
      | true => simp [collapseRuns, hp, hm a (by simp) hp]
      | false => simp [collapseRuns, hp]
  | a :: b :: r, hadj, hm => by
      have hadj' : noAdjacent p (b :: r) = true := by
        simp only [noAdjacent, Bool.and_eq_true] at hadj; exact hadj.2
      have ih := collapseRuns_eq_self p (b :: r) hadj'
        (fun c hc hpc => hm c (List.mem_cons_of_mem _ hc) hpc)
      cases hpa : p a with
      | true =>
          have hpb : p b = false := by
            simp only [noAdjacent, Bool.and_eq_true, Bool.not_eq_true',
              Bool.and_eq_false_iff] at hadj
            rcases hadj.1 with h | h
            · exact absurd h (by simp [hpa])
            · exact h
          have ha : a = '-' := hm a (by simp) hpa
          simp [collapseRuns, hpa, hpb, ih, ha]
      | false => simp [collapseRuns, hpa, ih]

theorem noAdjacent_tail (p : Char → Bool) :
    ∀ l, noAdjacent p l = true → noAdjacent p l.tail = true
  | [], h => h
  | [_], _ => by simp [noAdjacent]
  | _ :: b :: r, h => by
      simp only [noAdjacent, Bool.and_eq_true] at h
      simpa [noAdjacent] using h.2

theorem noAdjacent_append_pair (p : Char → Bool) :
    ∀ L b a, noAdjacent p (L ++ [b]) = true → (!(p b && p a)) = true →
      noAdjacent p (L ++ [b, a]) = true
  | [], b, a, _, hba => by simp [noAdjacent, hba]
  | [x], b, a, h, hba => by
      simp only [List.cons_append, List.nil_append, noAdjacent,
        Bool.and_eq_true] at h ⊢
      exact ⟨h.1, hba, by simp [noAdjacent]⟩
  | x :: y :: ys, b, a, h, hba => by
      simp only [List.cons_append, noAdjacent, Bool.and_eq_true] at h ⊢
      exact ⟨h.1, by
        simpa using noAdjacent_append_pair p (y :: ys) b a (by simpa using h.2) hba⟩

theorem noAdjacent_reverse (p : Char → Bool) :
    ∀ l, noAdjacent p l = true → noAdjacent p l.reverse = true := by
  have key : ∀ l a, noAdjacent p (a :: l) = true →
      noAdjacent p (l.reverse ++ [a]) = true := by
    intro l
    induction l with
    | nil => intro a _; simp [noAdjacent]
    | cons b r ih =>
        intro a h
        simp only [noAdjacent, Bool.and_eq_true] at h
        have h2 := ih b h.2
        have hba : (!(p b && p a)) = true := by
          simpa [Bool.and_comm] using h.1
        simpa [List.append_assoc] using
          noAdjacent_append_pair p r.reverse b a h2 hba
  intro l h
  cases l with
  | nil => simpa using h
  | cons a t => simpa using key t a h
/-- The shape `sanitizeFilename` guarantees: no forbidden character, no
whitespace, no two adjacent hyphens, no leading or trailing hyphen. -/
def cleanName (l : List Char) : Bool :=
  l.all (fun c => !isSpecialChar c && !isJsWs c) && noAdjacent (· = '-') l &&
  (l.head? != some '-') && (l.getLast? != some '-')

theorem noAdjacent_of_none (p : Char → Bool) :
    ∀ l, (∀ c ∈ l, p c = false) → noAdjacent p l = true
  | [] , _ => rfl
  | [_], _ => rfl
  | a :: b :: r, h => by
      simp only [noAdjacent, Bool.and_eq_true]
      refine ⟨by simp [h a (by simp)], ?_⟩
      exact noAdjacent_of_none p (b :: r) (fun c hc => h c (List.mem_cons_of_mem _ hc))

theorem dropLeadHyphen_head (L : List Char)
    (h : noAdjacent (· = '-') L = true) :
    (dropLeadHyphen L).head? ≠ some '-' := by
  cases L with
  | nil => simp [dropLeadHyphen]
  | cons a t =>
      by_cases ha : a = '-'
      · subst ha
        simp only [dropLeadHyphen, List.head?_cons, if_pos rfl, List.tail_cons]
        cases t with
        | nil => simp
        | cons b s =>
            simp only [noAdjacent, Bool.and_eq_true] at h
            intro hb
            have hb' : b = '-' := by simpa using hb
            subst hb'
            simp at h
      · simp [dropLeadHyphen, ha]

theorem dropLeadHyphen_subset {L : List Char} {c : Char}
    (h : c ∈ dropLeadHyphen L) : c ∈ L := by
  unfold dropLeadHyphen at h
  split at h
  · cases L with
    | nil => simp at h
    | cons a t => exact List.mem_cons_of_mem _ h
  · exact h

theorem noAdjacent_dropLeadHyphen (L : List Char)
    (h : noAdjacent (· = '-') L = true) :
    noAdjacent (· = '-') (dropLeadHyphen L) = true := by
  unfold dropLeadHyphen
  split
  · exact noAdjacent_tail _ L h
  · exact h

theorem getLast?_tail_of_ne : ∀ (l : List Char), l.tail.getLast? = l.getLast? ∨ l.tail = []
  | [] => Or.inr rfl
  | [_] => Or.inr rfl
  | _ :: b :: t => Or.inl (by rw [List.tail_cons, List.getLast?_cons_cons])

theorem getLast?_dropLeadHyphen (L : List Char)
    (h : L.getLast? ≠ some '-') : (dropLeadHyphen L).getLast? ≠ some '-' := by
  unfold dropLeadHyphen
  split
  · rcases getLast?_tail_of_ne L with h1 | h1
    · rw [h1]; exact h
    · rw [h1]; simp
  · exact h

theorem sanitizeFilename_clean (l : List Char) :
    cleanName (sanitizeFilename l) = true := by
  set f := fun c => if isSpecialChar c then '-' else c with hf
  set s1 := l.map f with hs1
  set s2 := collapseRuns isJsWs s1 with hs2
  set s3 := collapseRuns (· = '-') s2 with hs3
  have h1 : ∀ c ∈ s1, isSpecialChar c = false := by
    intro c hc
    rw [hs1] at hc
    rcases List.mem_map.mp hc with ⟨a, _, ha⟩
    rw [hf] at ha
    by_cases hsa : isSpecialChar a
    · simp only [if_pos hsa] at ha; rw [← ha]; decide
    · simp only [if_neg hsa] at ha; rw [← ha]; simpa using hsa
  have h2 : ∀ c ∈ s2, isSpecialChar c = false ∧ isJsWs c = false := by
    intro c hc
    rcases mem_collapseRuns isJsWs s1 c hc with h | h
    · subst h; exact ⟨by decide, by decide⟩
    · exact ⟨h1 c h.1, h.2⟩
  have h3 : ∀ c ∈ s3, isSpecialChar c = false ∧ isJsWs c = false := by
    intro c hc
    rcases mem_collapseRuns (· = '-') s2 c hc with h | h
    · subst h; exact ⟨by decide, by decide⟩
    · exact h2 c h.1
  have hadj3 : noAdjacent (· = '-') s3 = true :=
    noAdjacent_collapseRuns (· = '-') (by decide) s2
  -- the trimming steps
  set t1 := dropLeadHyphen s3 with ht1
  set t2 := dropLeadHyphen t1.reverse with ht2
  have hres : sanitizeFilename l = t2.reverse := rfl
  have hadj_t1 : noAdjacent (· = '-') t1 = true :=
    noAdjacent_dropLeadHyphen s3 hadj3
  have hadj_t1r : noAdjacent (· = '-') t1.reverse = true :=
    noAdjacent_reverse _ _ hadj_t1
  have hadj_t2 : noAdjacent (· = '-') t2 = true :=
    noAdjacent_dropLeadHyphen _ hadj_t1r
  have hmem : ∀ c ∈ t2.reverse, isSpecialChar c = false ∧ isJsWs c = false := by
    intro c hc
    rw [List.mem_reverse] at hc
    have : c ∈ t1.reverse := dropLeadHyphen_subset hc
    rw [List.mem_reverse] at this
    exact h3 c (dropLeadHyphen_subset this)
  have hhead_t1 : t1.head? ≠ some '-' := dropLeadHyphen_head s3 hadj3
  have hhead_t2 : t2.head? ≠ some '-' := dropLeadHyphen_head t1.reverse hadj_t1r
  have hlast_t2 : t2.getLast? ≠ some '-' := by
    apply getLast?_dropLeadHyphen
    rw [List.getLast?_reverse]
    exact hhead_t1
  rw [hres]
  simp only [cleanName, Bool.and_eq_true, List.all_eq_true]
  refine ⟨⟨⟨?_, ?_⟩, ?_⟩, ?_⟩
  · intro c hc
    rcases hmem c hc with ⟨hsp, hws⟩
    simp [hsp, hws]
  · exact noAdjacent_reverse _ _ hadj_t2
  · rw [List.head?_reverse]
    simpa using hlast_t2
  · rw [List.getLast?_reverse]
    simpa using hhead_t2

theorem sanitizeFilename_of_clean (l : List Char) (h : cleanName l = true) :
    sanitizeFilename l = l := by
  simp only [cleanName, Bool.and_eq_true, List.all_eq_true, bne_iff_ne,
    ne_eq] at h
  obtain ⟨⟨⟨hall, hadj⟩, hhead⟩, hlast⟩ := h
  have hmap : l.map (fun c => if isSpecialChar c then '-' else c) = l := by
    have : ∀ c ∈ l, (fun c => if isSpecialChar c then '-' else c) c = id c := by
      intro c hc
      have := hall c hc
      simp only [Bool.and_eq_true, Bool.not_eq_true'] at this
      simp [this.1]
    rw [List.map_congr_left this, List.map_id]
  have hws : collapseRuns isJsWs l = l := by
    apply collapseRuns_eq_self
    · apply noAdjacent_of_none
      intro c hc
      have := hall c hc
      simp only [Bool.and_eq_true, Bool.not_eq_true'] at this
      exact this.2
    · intro c hc hpc
      have := hall c hc
      simp only [Bool.and_eq_true, Bool.not_eq_true'] at this
      rw [this.2] at hpc
      exact absurd hpc (by simp)
  have hhy : collapseRuns (· = '-') l = l := by
    apply collapseRuns_eq_self
    · exact hadj
    · intro c _ hpc
      simpa using hpc
  have htrim : trimEdgeHyphens l = l := by
    unfold trimEdgeHyphens
    have e1 : dropLeadHyphen l = l := by
      unfold dropLeadHyphen
      rw [if_neg (by simpa using hhead)]
    rw [e1]
    have e2 : dropLeadHyphen l.reverse = l.reverse := by
      unfold dropLeadHyphen
      rw [if_neg (by rw [List.head?_reverse]; simpa using hlast)]
    rw [e2, List.reverse_reverse]
  unfold sanitizeFilename
  rw [hmap, hws, hhy, htrim]

/-- C7: `sanitizeFilename` is idempotent, and its output never contains a
forbidden character `< > : " / \ | ? *`, any whitespace character, two
adjacent hyphens, or a leading or trailing hyphen. -/
theorem sanitizeFilename_idempotent_and_clean (l : List Char) :
    sanitizeFilename (sanitizeFilename l) = sanitizeFilename l ∧
    (∀ c ∈ sanitizeFilename l, isSpecialChar c = false ∧ isJsWs c = false) ∧
    noAdjacent (· = '-') (sanitizeFilename l) = true ∧
    (sanitizeFilename l).head? ≠ some '-' ∧
    (sanitizeFilename l).getLast? ≠ some '-' := by
  have hc := sanitizeFilename_clean l
  refine ⟨sanitizeFilename_of_clean _ hc, ?_, ?_, ?_, ?_⟩ <;>
    simp only [cleanName, Bool.and_eq_true, List.all_eq_true, bne_iff_ne,
      ne_eq] at hc
  · intro c hcm
    have := hc.1.1.1 c hcm
    simp only [Bool.and_eq_true, Bool.not_eq_true'] at this
    exact this
  · exact hc.1.1.2
  · exact hc.1.2
  · exact hc.2
/-- `VaultManager.addToHistory` (src/core/vault-manager.js lines 289-300):
remove the path if already present, prepend it, keep only the first 10. -/
def addToHistory (recent : List String) (vaultPath : String) : List String :=
  (vaultPath :: recent.filter (fun p => p ≠ vaultPath)).take 10

theorem addToHistory_step (recent : List String) (p : String) :
    (addToHistory recent p).length ≤ 10 ∧
    (recent.Nodup → (addToHistory recent p).Nodup) ∧
    (addToHistory recent p).head? = some p := by
  refine ⟨?_, ?_, ?_⟩
  · simpa [addToHistory] using List.length_take_le 10 _
  · intro hnd
    apply List.Nodup.sublist (List.take_sublist _ _)
    refine List.Nodup.cons ?_ (hnd.filter _)
    intro hmem
    have := List.of_mem_filter hmem
    simp at this
  · simp [addToHistory, List.take_cons]

theorem addToHistory_fold (calls : List String) :
    ∀ init : List String, init.Nodup → calls ≠ [] →
      (calls.foldl addToHistory init).length ≤ 10 ∧
      (calls.foldl addToHistory init).Nodup ∧
      (calls.foldl addToHistory init).head? = calls.getLast? := by
  induction calls with
  | nil => intro _ _ h; exact absurd rfl h
  | cons c cs ih =>
      intro init hinit _
      have hstep := addToHistory_step init c
      cases cs with
      | nil =>
          simp only [List.foldl_cons, List.foldl_nil, List.getLast?_singleton]
          exact ⟨hstep.1, hstep.2.1 hinit, hstep.2.2⟩
      | cons d ds =>
          have := ih (addToHistory init c) (hstep.2.1 hinit) (by simp)
          simpa [List.getLast?_cons_cons] using this

/-- C10: after any nonempty sequence of `addToHistory` calls starting from
the empty recent-vault list, the list holds at most 10 entries, has no
duplicate paths, and its first element is the most recently added path. -/
theorem addToHistory_invariants (calls : List String) (h : calls ≠ []) :
    (calls.foldl addToHistory []).length ≤ 10 ∧
    (calls.foldl addToHistory []).Nodup ∧
    (calls.foldl addToHistory []).head? = calls.getLast? :=
  addToHistory_fold calls [] List.nodup_nil h

/-- Witness for C10 at a concrete call sequence with a repeated path. -/
theorem addToHistory_invariants_witness :
    (["a", "b", "a", "c"] : List String) ≠ [] ∧
    ((["a", "b", "a", "c"] : List String).foldl addToHistory []).length ≤ 10 ∧
    ((["a", "b", "a", "c"] : List String).foldl addToHistory []).Nodup ∧
    ((["a", "b", "a", "c"] : List String).foldl addToHistory []).head? =
      (["a", "b", "a", "c"] : List String).getLast? :=
  ⟨by decide, addToHistory_invariants ["a", "b", "a", "c"] (by decide)⟩
section ObjectModel

variable {κ : Type} {α : Type} [DecidableEq κ]

/-- JavaScript object assignment `obj[k] = v` on an insertion-ordered map:
overwrite in place if the key exists, else append. -/
def objInsert (m : List (κ × α)) (k : κ) (v : α) : List (κ × α) :=
  if m.any (fun p => p.1 = k) then
    m.map (fun p => if p.1 = k then (k, v) else p)
  else m ++ [(k, v)]

/-- First value stored under `k` (the only one, for nodup-key maps). -/
def objLookup (m : List (κ × α)) (k : κ) : Option α :=
  (m.find? (fun p => p.1 = k)).map Prod.snd

def objKeys (m : List (κ × α)) : List κ := m.map Prod.fst

theorem objInsert_of_not_mem (m : List (κ × α)) (k : κ) (v : α)
    (h : k ∉ objKeys m) : objInsert m k v = m ++ [(k, v)] := by
  have hc : (m.any (fun p => decide (p.1 = k))) = false := by
    rw [List.any_eq_false]
    intro p hp
    simp only [decide_eq_true_eq]
    intro he
    exact h (List.mem_map.mpr ⟨p, hp, he⟩)
  unfold objInsert
  rw [hc]
  simp

theorem objInsert_foldl_of_disjoint :
    ∀ (l : List (κ × α)) (acc : List (κ × α)),
      (∀ k ∈ objKeys l, k ∉ objKeys acc) → (objKeys l).Nodup →
      l.foldl (fun m p => objInsert m p.1 p.2) acc = acc ++ l
  | [], acc, _, _ => by simp
  | (k, v) :: t, acc, hdisj, hnd => by
      simp only [List.foldl_cons]
      have hk : k ∉ objKeys acc := hdisj k (by simp [objKeys])
      rw [objInsert_of_not_mem acc k v hk]
      have hnd' : (objKeys t).Nodup ∧ k ∉ objKeys t := by
        simp only [objKeys, List.map_cons, List.nodup_cons] at hnd
        exact ⟨hnd.2, hnd.1⟩
      rw [objInsert_foldl_of_disjoint t (acc ++ [(k, v)]) ?_ hnd'.1]
      · simp
      · intro k2 hk2
        simp only [objKeys, List.map_append, List.mem_append,
          List.map_singleton, List.mem_singleton]
        push_neg
        refine ⟨hdisj k2 ?_, ?_⟩
        · simp only [objKeys, List.map_cons, List.mem_cons]
          exact Or.inr hk2
        · intro he
          rw [he] at hk2
          exact hnd'.2 hk2

theorem objKeys_objInsert_subset (m : List (κ × α)) (k : κ) (v : α) (k2 : κ)
    (h : k2 ∈ objKeys (objInsert m k v)) : k2 ∈ objKeys m ∨ k2 = k := by
  unfold objInsert at h
  split at h
  · rcases List.mem_map.mp h with ⟨q, hq, rfl⟩
    rcases List.mem_map.mp hq with ⟨q0, hq0, hq0e⟩
    by_cases hq0k : q0.1 = k
    · simp only [if_pos hq0k] at hq0e
      right; rw [← hq0e]
    · simp only [if_neg hq0k] at hq0e
      left; exact List.mem_map.mpr ⟨q0, hq0, by rw [hq0e]⟩
  · simp only [objKeys, List.map_append, List.mem_append, List.map_singleton,
      List.mem_singleton] at h
    exact h.imp id id

theorem objKeys_nodup_objInsert (m : List (κ × α)) (k : κ) (v : α)
    (h : (objKeys m).Nodup) : (objKeys (objInsert m k v)).Nodup := by
  unfold objInsert
  split
  · next hany =>
      have heq : objKeys (m.map (fun p => if p.1 = k then (k, v) else p)) =
          objKeys m := by
        simp only [objKeys, List.map_map]
        apply List.map_congr_left
        intro p _
        by_cases hp : p.1 = k
        · simp [Function.comp, hp]
        · simp [Function.comp, hp]
      rw [heq]; exact h
  · next hany =>
      simp only [List.any_eq_true, decide_eq_true_eq, not_exists] at hany
      simp only [objKeys, List.map_append, List.map_singleton]
      rw [List.nodup_append]
      refine ⟨h, List.nodup_singleton _, ?_⟩
      intro a ha hb
      simp only [List.mem_singleton] at hb
      subst hb
      rcases List.mem_map.mp ha with ⟨p, hp, hpe⟩
      exact hany p ⟨hp, hpe⟩

end ObjectModel
theorem char_toLower_toLower (c : Char) : c.toLower.toLower = c.toLower := by
  simp only [Char.toLower]
  by_cases h : c.toNat ≥ 65 ∧ c.toNat ≤ 90
  · have hv : (Char.ofNat (c.toNat + 32)).toNat = c.toNat + 32 := by
      rw [Char.ofNat, dif_pos]
      · rfl
      · exact Or.inl (by omega)
    rw [if_pos h, if_neg (by omega)]
  · rw [if_neg h, if_neg h]

/-- JavaScript `toLowerCase()` on the ASCII range (the only characters
appearing in property keys the standardization table can act on). -/
def jsToLower (s : String) : String := String.mk (s.data.map Char.toLower)

theorem jsToLower_idem (s : String) : jsToLower (jsToLower s) = jsToLower s := by
  simp only [jsToLower, List.map_map]
  congr 1
  apply List.map_congr_left
  intro c _
  exact char_toLower_toLower c

/-- `PropertyManager.arePropertiesSimilar`'s normalization
(src/unnamed/part_002 line 181): lowercase and strip hyphen, underscore
and whitespace. -/
def normalizeProp (s : String) : String :=
  String.mk ((s.data.map Char.toLower).filter
    (fun c => !(c = '-' || c = '_' || isJsWs c)))

/-- The `standardProperties` table of `PropertyManager`
(src/unnamed/part_002 lines 8-20): canonical names with their aliases. -/
def standardProperties : List (String × List String) :=
  [("created", ["date-created", "dateCreated", "creation-date"]),
   ("modified", ["date-modified", "dateModified", "last-modified"]),
   ("tags", ["tag", "categories", "category"]),
   ("title", ["name", "heading"]),
   ("author", ["creator", "writer"]),
   ("status", ["state"]),
   ("priority", ["importance"]),
   ("type", ["kind", "category"]),
   ("description", ["summary", "excerpt"]),
   ("source", ["reference", "url", "link"])]

/-- `PropertyManager.findStandardProperty` (src/unnamed/part_002 lines
152-175): exact canonical match on the lowercased key, then alias-table
match, then fuzzy match on the stripped normal form, else unchanged. -/
def findStandardProperty (propertyName : String) : String :=
  let lowerName := jsToLower propertyName
  if (standardProperties.find? (fun p => p.1 = lowerName)).isSome then
    lowerName
  else
    match standardProperties.find? (fun p => p.2.contains lowerName) with
    | some p => p.1
    | none =>
      match standardProperties.find?
          (fun p => normalizeProp lowerName = normalizeProp p.1) with
      | some p => p.1
      | none => propertyName

/-- `PropertyManager.standardizePropertyNames` (src/unnamed/part_002 lines
134-147): rename every key to its standard form, collecting the applied
renamings. -/
def standardizePropertyNames {α : Type} (frontmatter : List (String × α)) :
    List (String × α) × List (String × String) :=
  frontmatter.foldl
    (fun acc p =>
      let standardKey := findStandardProperty p.1
      (objInsert acc.1 standardKey p.2,
       if standardKey ≠ p.1 then acc.2 ++ [(p.1, standardKey)] else acc.2))
    ([], [])

theorem table_keys_lower :
    ∀ p ∈ standardProperties, jsToLower p.1 = p.1 := by decide

theorem findStandardProperty_fixed (k : String) :
    findStandardProperty (findStandardProperty k) = findStandardProperty k := by
  have hmem_fix : ∀ p ∈ standardProperties, findStandardProperty p.1 = p.1 := by
    intro p hp
    have hlow : jsToLower p.1 = p.1 := table_keys_lower p hp
    have hfind : (standardProperties.find? (fun q => q.1 = jsToLower p.1)).isSome := by
      rw [hlow]
      rw [List.find?_isSome]
      exact ⟨p, hp, by simp⟩
    unfold findStandardProperty
    rw [if_pos hfind, hlow]
  by_cases h1 : (standardProperties.find? (fun p => p.1 = jsToLower k)).isSome
  · have hk : findStandardProperty k = jsToLower k := by
      unfold findStandardProperty
      rw [if_pos h1]
    rw [hk]
    obtain ⟨p, hfp⟩ := Option.isSome_iff_exists.mp h1
    have hmem := List.mem_of_find?_eq_some hfp
    have hcond := List.find?_some hfp
    simp only [decide_eq_true_eq] at hcond
    rw [← hcond]
    exact hmem_fix p hmem
  · cases h2 : standardProperties.find? (fun p => p.2.contains (jsToLower k)) with
    | some p =>
        have hk : findStandardProperty k = p.1 := by
          unfold findStandardProperty
          rw [if_neg h1, h2]
        rw [hk]
        exact hmem_fix p (List.mem_of_find?_eq_some h2)
    | none =>
        cases h3 : standardProperties.find?
            (fun p => normalizeProp (jsToLower k) = normalizeProp p.1) with
        | some p =>
            have hk : findStandardProperty k = p.1 := by
              unfold findStandardProperty
              rw [if_neg h1, h2, h3]
            rw [hk]
            exact hmem_fix p (List.mem_of_find?_eq_some h3)
        | none =>
            have hk : findStandardProperty k = k := by
              unfold findStandardProperty
              rw [if_neg h1, h2, h3]
            simp only [hk]
theorem standardize_fst {α : Type} (fm : List (String × α)) :
    ∀ acc : List (String × α) × List (String × String),
      (fm.foldl
        (fun acc p =>
          let standardKey := findStandardProperty p.1
          (objInsert acc.1 standardKey p.2,
           if standardKey ≠ p.1 then acc.2 ++ [(p.1, standardKey)] else acc.2))
        acc).1 =
      fm.foldl (fun m p => objInsert m (findStandardProperty p.1) p.2) acc.1 := by
  induction fm with
  | nil => intro acc; rfl
  | cons q t ih =>
      intro acc
      simp only [List.foldl_cons]
      exact ih _

theorem fold_objInsert_std_keys {α : Type} :
    ∀ (l : List (String × α)) (acc : List (String × α)),
      (∀ k ∈ objKeys acc, findStandardProperty k = k) →
      (objKeys acc).Nodup →
      (∀ k ∈ objKeys
          (l.foldl (fun m p => objInsert m (findStandardProperty p.1) p.2) acc),
        findStandardProperty k = k) ∧
      (objKeys
          (l.foldl (fun m p => objInsert m (findStandardProperty p.1) p.2) acc)).Nodup
  | [], acc, hfix, hnd => ⟨hfix, hnd⟩
  | q :: t, acc, hfix, hnd => by
      simp only [List.foldl_cons]
      apply fold_objInsert_std_keys t
      · intro k hk
        rcases objKeys_objInsert_subset acc (findStandardProperty q.1) q.2 k hk with h | h
        · exact hfix k h
        · rw [h]; exact findStandardProperty_fixed q.1
      · exact objKeys_nodup_objInsert _ _ _ hnd

theorem foldl_objInsert_congr {α : Type} :
    ∀ (l : List (String × α)) (acc : List (String × α)),
      (∀ p ∈ l, findStandardProperty p.1 = p.1) →
      l.foldl (fun m p => objInsert m (findStandardProperty p.1) p.2) acc =
      l.foldl (fun m p => objInsert m p.1 p.2) acc
  | [], _, _ => rfl
  | q :: t, acc, h => by
      simp only [List.foldl_cons]
      rw [h q (by simp)]
      exact foldl_objInsert_congr t _ (fun p hp => h p (List.mem_cons_of_mem _ hp))

/-- C8: `standardizePropertyNames` is idempotent — applying it to the
frontmatter it produced returns that frontmatter unchanged, because every
key it emits is a fixed point of the canonical-name resolution. -/
theorem standardizePropertyNames_idem {α : Type} (fm : List (String × α)) :
    (standardizePropertyNames (standardizePropertyNames fm).1).1 =
      (standardizePropertyNames fm).1 := by
  unfold standardizePropertyNames
  rw [standardize_fst, standardize_fst]
  set out := fm.foldl (fun m p => objInsert m (findStandardProperty p.1) p.2) []
    with hout
  have hfacts := fold_objInsert_std_keys fm [] (by simp [objKeys]) (by simp [objKeys])
  rw [← hout] at hfacts
  rw [foldl_objInsert_congr out []
    (fun p hp => hfacts.1 p.1 (List.mem_map.mpr ⟨p, hp, rfl⟩))]
  rw [objInsert_foldl_of_disjoint out [] (by simp [objKeys]) hfacts.2]
  simp
/-- JavaScript `String.trim()` (and trimming of regex-split pieces):
whitespace stripped from both ends. -/
def jsTrim (l : List Char) : List Char :=
  ((l.dropWhile isJsWs).reverse.dropWhile isJsWs).reverse

/-- JavaScript `String.split(c)`: the pieces between occurrences of `c`
(never empty as a list; splitting the empty string gives one empty piece). -/
def splitOnChar (c : Char) : List Char → List (List Char)
  | [] => [[]]
  | x :: xs =>
    if x = c then [] :: splitOnChar c xs
    else
      match splitOnChar c xs with
      | [] => [[x]]
      | y :: ys => (x :: y) :: ys

/-- Decimal digits of `n`, least significant first, with fuel. -/
def natDigitsAux : Nat → Nat → List Char
  | 0, _ => []
  | f + 1, n => if n = 0 then [] else Char.ofNat (48 + n % 10) :: natDigitsAux f (n / 10)

/-- JavaScript `Number.prototype.toString` on a natural number. -/
def natToChars (n : Nat) : List Char :=
  if n = 0 then ['0'] else (natDigitsAux n n).reverse

/-- Numeric value of a big-endian decimal digit string. -/
def digitsToNat (l : List Char) : Nat :=
  l.foldl (fun a c => a * 10 + (c.toNat - 48)) 0

/-- Strip factors of ten from the mantissa into the exponent (fuel-driven,
`m.natAbs` steps always suffice). -/
def stripTensF : Nat → Int → Int → Int × Int
  | 0, m, e => (m, e)
  | f + 1, m, e =>
    if m ≠ 0 ∧ m % 10 = 0 then stripTensF f (m / 10) (e + 1) else (m, e)

/-- Canonical form of the decimal value `m * 10 ^ e`: trailing zero factors
moved into the exponent, zero always represented as `(0, 0)`. Two JavaScript
numbers arising from decimal literals are equal exactly when their canonical
forms agree. -/
def mkNum (m e : Int) : Int × Int :=
  if m = 0 then (0, 0) else stripTensF m.natAbs m e

/-- A JavaScript number produced by `Number(...)` on a numeric literal:
a finite decimal in canonical form, or an infinity. -/
inductive JsNum
  | fin (m e : Int)
  | inf (neg : Bool)
deriving DecidableEq

def finOf (m e : Int) : JsNum := JsNum.fin (mkNum m e).1 (mkNum m e).2

def JsNum.negate : JsNum → JsNum
  | .fin m e => .fin (-m) e
  | .inf b => .inf (!b)

/-- The digit class `[0-9]` (JavaScript `\\d` and the digits accepted by
its numeric literals). -/
def isDig (c : Char) : Bool := 48 ≤ c.toNat && c.toNat ≤ 57

/-- The optional exponent part of a decimal literal: nothing, or `e`/`E`,
an optional sign, and at least one digit consuming the whole rest. -/
def parseExpPart : List Char → Option Int
  | [] => some 0
  | c :: rest =>
    if c = 'e' ∨ c = 'E' then
      match rest with
      | '+' :: ds =>
          if ds ≠ [] ∧ ds.all isDig then some (digitsToNat ds) else none
      | '-' :: ds =>
          if ds ≠ [] ∧ ds.all isDig then some (-(digitsToNat ds : Int)) else none
      | ds => if ds ≠ [] ∧ ds.all isDig then some (digitsToNat ds) else none
    else none

/-- An unsigned decimal literal `digits [. digits] [exponent]` with at least
one digit, as mantissa-digits value and base-ten scale. -/
def parseDecMag (l : List Char) : Option (Nat × Int) :=
  let ds1 := l.takeWhile isDig
  let r1 := l.drop ds1.length
  match r1 with
  | c :: r2 =>
      if c = '.' then
        let ds2 := r2.takeWhile isDig
        let r3 := r2.drop ds2.length
        if ds1.length + ds2.length = 0 then none
        else
          match parseExpPart r3 with
          | some exp => some (digitsToNat (ds1 ++ ds2), exp - ds2.length)
          | none => none
      else
        if ds1.length = 0 then none
        else
          match parseExpPart r1 with
          | some exp => some (digitsToNat ds1, exp)
          | none => none
  | [] =>
      if ds1.length = 0 then none
      else
        match parseExpPart r1 with
        | some exp => some (digitsToNat ds1, exp)
        | none => none

def isHexDigit (c : Char) : Bool :=
  isDig c || ('a' ≤ c && c ≤ 'f') || ('A' ≤ c && c ≤ 'F')

def hexVal (c : Char) : Nat :=
  if isDig c then c.toNat - 48
  else if 'a' ≤ c && c ≤ 'f' then c.toNat - 87
  else c.toNat - 55

def isOctDigit (c : Char) : Bool := '0' ≤ c && c ≤ '7'

def isBinDigit (c : Char) : Bool := c = '0' || c = '1'

def digitsToNatBase (b : Nat) (val : Char → Nat) (l : List Char) : Nat :=
  l.foldl (fun a c => a * b + val c) 0

def parseRadix (b : Nat) (valid : Char → Bool) (val : Char → Nat)
    (ds : List Char) : Option Nat :=
  if ds ≠ [] ∧ ds.all valid then some (digitsToNatBase b val ds) else none

def radixOf (c : Char) : Option (Nat × (Char → Bool) × (Char → Nat)) :=
  if c = 'x' ∨ c = 'X' then some (16, isHexDigit, hexVal)
  else if c = 'o' ∨ c = 'O' then some (8, isOctDigit, fun d => d.toNat - 48)
  else if c = 'b' ∨ c = 'B' then some (2, isBinDigit, fun d => d.toNat - 48)
  else none

/-- The magnitude of a JavaScript numeric literal: `Infinity`, a radix
literal `0x/0o/0b...`, or a decimal literal. -/
def jsNumMag (l : List Char) : Option JsNum :=
  if l = str "Infinity" then some (.inf false)
  else
    match l with
    | a :: c :: ds =>
        if a = '0' then
          match radixOf c with
          | some (b, valid, val) =>
              (parseRadix b valid val ds).map (fun n => finOf (n : Int) 0)
          | none => (parseDecMag l).map (fun p => finOf (p.1 : Int) p.2)
        else (parseDecMag l).map (fun p => finOf (p.1 : Int) p.2)
    | _ => (parseDecMag l).map (fun p => finOf (p.1 : Int) p.2)

/-- JavaScript `Number(value)` on an already-trimmed nonempty string (every
call site trims first, and the empty string is separately excluded). -/
def jsNumber : List Char → Option JsNum
  | [] => jsNumMag []
  | c :: rest =>
      if c = '+' then jsNumMag rest
      else if c = '-' then (jsNumMag rest).map JsNum.negate
      else jsNumMag (c :: rest)

/-- The `!isNaN(Number(value)) && value !== ''` test of
`MarkdownUtils.parseYamlValue` (src/unnamed/part_003 line 96). -/
def isNumericJS (l : List Char) : Bool := (jsNumber l).isSome

/-- A frontmatter value as produced by `MarkdownUtils.parseYamlValue`:
string, boolean, null, number (canonical finite decimal or infinity), or
array. -/
inductive YamlValue
  | vstr (s : List Char)
  | vbool (b : Bool)
  | vnull
  | vnum (m e : Int)
  | vinf (neg : Bool)
  | varr (items : List YamlValue)

mutual

def yamlValueEq : YamlValue → YamlValue → Bool
  | .vstr a, .vstr b => decide (a = b)
  | .vbool a, .vbool b => a = b
  | .vnull, .vnull => true
  | .vnum m1 e1, .vnum m2 e2 => decide (m1 = m2) && decide (e1 = e2)
  | .vinf a, .vinf b => a = b
  | .varr a, .varr b => yamlListEq a b
  | _, _ => false

def yamlListEq : List YamlValue → List YamlValue → Bool
  | [], [] => true
  | a :: x, b :: y => yamlValueEq a b && yamlListEq x y
  | _, _ => false

end

mutual

theorem yamlValueEq_iff : ∀ a b : YamlValue, yamlValueEq a b = true ↔ a = b
  | .vstr _, .vstr _ => by simp [yamlValueEq]
  | .vstr _, .vbool _ => by simp [yamlValueEq]
  | .vstr _, .vnull => by simp [yamlValueEq]
  | .vstr _, .vnum _ _ => by simp [yamlValueEq]
  | .vstr _, .vinf _ => by simp [yamlValueEq]
  | .vstr _, .varr _ => by simp [yamlValueEq]
  | .vbool _, .vstr _ => by simp [yamlValueEq]
  | .vbool _, .vbool _ => by simp [yamlValueEq]
  | .vbool _, .vnull => by simp [yamlValueEq]
  | .vbool _, .vnum _ _ => by simp [yamlValueEq]
  | .vbool _, .vinf _ => by simp [yamlValueEq]
  | .vbool _, .varr _ => by simp [yamlValueEq]
  | .vnull, .vstr _ => by simp [yamlValueEq]
  | .vnull, .vbool _ => by simp [yamlValueEq]
  | .vnull, .vnull => by simp [yamlValueEq]
  | .vnull, .vnum _ _ => by simp [yamlValueEq]
  | .vnull, .vinf _ => by simp [yamlValueEq]
  | .vnull, .varr _ => by simp [yamlValueEq]
  | .vnum _ _, .vstr _ => by simp [yamlValueEq]
  | .vnum _ _, .vbool _ => by simp [yamlValueEq]
  | .vnum _ _, .vnull => by simp [yamlValueEq]
  | .vnum _ _, .vnum _ _ => by simp [yamlValueEq]
  | .vnum _ _, .vinf _ => by simp [yamlValueEq]
  | .vnum _ _, .varr _ => by simp [yamlValueEq]
  | .vinf _, .vstr _ => by simp [yamlValueEq]
  | .vinf _, .vbool _ => by simp [yamlValueEq]
  | .vinf _, .vnull => by simp [yamlValueEq]
  | .vinf _, .vnum _ _ => by simp [yamlValueEq]
  | .vinf _, .vinf _ => by simp [yamlValueEq]
  | .vinf _, .varr _ => by simp [yamlValueEq]
  | .varr _, .vstr _ => by simp [yamlValueEq]
  | .varr _, .vbool _ => by simp [yamlValueEq]
  | .varr _, .vnull => by simp [yamlValueEq]
  | .varr _, .vnum _ _ => by simp [yamlValueEq]
  | .varr _, .vinf _ => by simp [yamlValueEq]
  | .varr a, .varr b => by
      simp only [yamlValueEq, YamlValue.varr.injEq]
      exact yamlListEq_iff a b

theorem yamlListEq_iff : ∀ x y : List YamlValue, yamlListEq x y = true ↔ x = y
  | [], [] => by simp [yamlListEq]
  | [], _ :: _ => by simp [yamlListEq]
  | _ :: _, [] => by simp [yamlListEq]
  | a :: x, b :: y => by
      simp only [yamlListEq, Bool.and_eq_true, List.cons.injEq]
      exact and_congr (yamlValueEq_iff a b) (yamlListEq_iff x y)

end

instance instDecEqYamlValue : DecidableEq YamlValue :=
  fun a b => decidable_of_iff _ (yamlValueEq_iff a b)
def qchar : Char := '"'

def squote : Char := Char.ofNat 39

/-- `.replace(/"/g, '\\"')` inside `stringifyYamlValue`. -/
def escQuotes : List Char → List Char
  | [] => []
  | c :: r => if c = qchar then '\\' :: qchar :: escQuotes r else c :: escQuotes r

/-- `Number.prototype.toString` for the canonical decimal `m * 10 ^ e`
(plain notation; JavaScript's switch to exponential notation for magnitudes
beyond 1e21 or below 1e-6 changes only the spelling, and no statement below
depends on it). -/
def magChars (a : Nat) (e : Int) : List Char :=
  if 0 ≤ e then natToChars (a * 10 ^ e.toNat)
  else
    let k := (-e).toNat
    natToChars (a / 10 ^ k) ++
      '.' :: (List.replicate (k - (natToChars (a % 10 ^ k)).length) '0' ++
        natToChars (a % 10 ^ k))

def printNum (m e : Int) : List Char :=
  (if m < 0 then ['-'] else []) ++ magChars m.natAbs e

mutual

/-- `MarkdownUtils.stringifyYamlValue` (src/unnamed/part_003 lines 125-142):
quote strings containing a colon, hash or newline (escaping embedded double
quotes), print booleans, null and numbers, bracket arrays joined with a
comma and space. -/
def stringifyYamlValue : YamlValue → List Char
  | .vstr s =>
    if s.contains ':' || s.contains '#' || s.contains '\n' then
      qchar :: escQuotes s ++ [qchar]
    else s
  | .vbool b => if b then str "true" else str "false"
  | .vnull => str "null"
  | .vnum m e => printNum m e
  | .vinf neg => if neg then str "-Infinity" else str "Infinity"
  | .varr items => '[' :: stringifyYamlList items ++ [']']

/-- `[...].map(stringifyYamlValue).join(', ')`. -/
def stringifyYamlList : List YamlValue → List Char
  | [] => []
  | [v] => stringifyYamlValue v
  | v :: rest => stringifyYamlValue v ++ ',' :: ' ' :: stringifyYamlList rest

end

mutual

/-- `MarkdownUtils.parseYamlValue` (src/unnamed/part_003 lines 73-106),
fuel-driven so the kernel can evaluate it; `value.length + 1` fuel always
suffices and the wrapper `parseYamlValue` supplies it. The source's final
ISO-date regex branch returns the string unchanged, exactly as the
fall-through does, so both are the `vstr` default here. Every call site
passes a trimmed string. -/
def parseYamlValueF : Nat → List Char → YamlValue
  | 0, value => .vstr value
  | fuel + 1, value =>
    if value.head? = some qchar ∧ value.getLast? = some qchar then
      .vstr ((value.drop 1).dropLast)
    else if value.head? = some squote ∧ value.getLast? = some squote then
      .vstr ((value.drop 1).dropLast)
    else if value = str "true" then .vbool true
    else if value = str "false" then .vbool false
    else if value = str "null" then .vnull
    else if value.head? = some '[' ∧ value.getLast? = some ']' then
      let arrayContent := (value.drop 1).dropLast
      if jsTrim arrayContent = [] then .varr []
      else .varr (parseYamlItemsF fuel (splitOnChar ',' arrayContent))
    else
      match jsNumber value with
      | some (.fin m e) => .vnum m e
      | some (.inf b) => .vinf b
      | none => .vstr value

def parseYamlItemsF : Nat → List (List Char) → List YamlValue
  | 0, _ => []
  | _ + 1, [] => []
  | fuel + 1, i :: is => parseYamlValueF fuel (jsTrim i) :: parseYamlItemsF fuel is

end

def parseYamlValue (value : List Char) : YamlValue :=
  parseYamlValueF (value.length + 1) value

/-- `MarkdownUtils.parseYamlLike` (src/unnamed/part_003 lines 48-68): split
into lines, skip blank and `#`-comment lines and lines without a colon,
split each remaining line at its first colon into trimmed key and parsed
value. -/
def parseYamlLike (yamlContent : List Char) : List (List Char × YamlValue) :=
  (splitOnChar '\n' yamlContent).foldl
    (fun result line =>
      let trimmed := jsTrim line
      if trimmed = [] then result
      else if trimmed.head? = some '#' then result
      else
        match trimmed.findIdx? (· = ':') with
        | none => result
        | some i =>
            objInsert result (jsTrim (trimmed.take i))
              (parseYamlValue (jsTrim (trimmed.drop (i + 1)))))
    []

/-- `MarkdownUtils.stringifyYaml` at indent 0 (src/unnamed/part_003 lines
111-120): one `key: value` line per entry. -/
def stringifyYaml (obj : List (List Char × YamlValue)) : List Char :=
  obj.foldl
    (fun result p => result ++ p.1 ++ ':' :: ' ' :: stringifyYamlValue p.2 ++ ['\n'])
    []

example : parseYamlLike (str "title: My Note\ncount: 42\ndone: true") =
    [(str "title", .vstr (str "My Note")), (str "count", .vnum 42 0),
     (str "done", .vbool true)] := by decide

example : parseYamlLike (str "tags: [a, b]\npi: 3.50\nneg: -0.5\nq: \"true\"") =
    [(str "tags", .varr [.vstr (str "a"), .vstr (str "b")]),
     (str "pi", .vnum 35 (-1)), (str "neg", .vnum (-5) (-1)),
     (str "q", .vstr (str "true"))] := by decide

example : stringifyYaml [(str "q", .vstr (str "true")), (str "n", .vnum 35 (-1)),
    (str "t", .varr [.vstr (str "a"), .vstr (str "b")])] =
    str "q: true\nn: 3.5\nt: [a, b]\n" := by decide
theorem toNat_ofNat_small {n : Nat} (h : n < 55296) : (Char.ofNat n).toNat = n := by
  rw [Char.ofNat, dif_pos]
  · rfl
  · exact Or.inl h

theorem digit_char_isDig {d : Nat} (h : d < 10) :
    isDig (Char.ofNat (48 + d)) = true := by
  have ht : (Char.ofNat (48 + d)).toNat = 48 + d := toNat_ofNat_small (by omega)
  simp only [isDig, Bool.and_eq_true, decide_eq_true_eq, ht]
  omega

theorem digit_char_val {d : Nat} (h : d < 10) :
    (Char.ofNat (48 + d)).toNat - 48 = d := by
  rw [toNat_ofNat_small (by omega)]
  omega

theorem natDigitsAux_all_digit :
    ∀ f n, ∀ c ∈ natDigitsAux f n, isDig c = true
  | 0, n, c, h => by simp [natDigitsAux] at h
  | f + 1, n, c, h => by
      by_cases hn : n = 0
      · simp [natDigitsAux, hn] at h
      · simp only [natDigitsAux, if_neg hn, List.mem_cons] at h
        rcases h with h | h
        · rw [h]; exact digit_char_isDig (Nat.mod_lt _ (by omega))
        · exact natDigitsAux_all_digit f (n / 10) c h

theorem natToChars_all_digit (n : Nat) : ∀ c ∈ natToChars n, isDig c = true := by
  intro c h
  unfold natToChars at h
  split at h
  · simp only [List.mem_singleton] at h
    rw [h]; decide
  · rw [List.mem_reverse] at h
    exact natDigitsAux_all_digit n n c h

theorem natToChars_ne_nil (n : Nat) : natToChars n ≠ [] := by
  unfold natToChars
  split
  · simp
  · next hn =>
      simp only [ne_eq, List.reverse_eq_nil_iff]
      cases hf : natDigitsAux n n with
      | nil =>
          exfalso
          cases n with
          | zero => exact hn rfl
          | succ k => simp [natDigitsAux, Nat.succ_ne_zero] at hf
      | cons a l => simp [hf]

theorem digitsToNat_append (A B : List Char) :
    digitsToNat (A ++ B) = digitsToNat A * 10 ^ B.length + digitsToNat B := by
  unfold digitsToNat
  rw [List.foldl_append]
  generalize List.foldl (fun a c => a * 10 + (c.toNat - 48)) 0 A = a
  induction B generalizing a with
  | nil => simp
  | cons c r ih =>
      simp only [List.foldl_cons, List.length_cons]
      rw [ih (a * 10 + (c.toNat - 48)), ih (0 * 10 + (c.toNat - 48))]
      ring

theorem digitsToNat_natDigitsAux :
    ∀ f n, n ≤ f → digitsToNat ((natDigitsAux f n).reverse) = n
  | 0, n, h => by
      have : n = 0 := by omega
      simp [natDigitsAux, digitsToNat, this]
  | f + 1, n, h => by
      by_cases hn : n = 0
      · simp [natDigitsAux, hn, digitsToNat]
      · simp only [natDigitsAux, if_neg hn, List.reverse_cons]
        rw [digitsToNat_append]
        rw [digitsToNat_natDigitsAux f (n / 10) (by omega)]
        have hd : digitsToNat [Char.ofNat (48 + n % 10)] = n % 10 := by
          simp only [digitsToNat, List.foldl_cons, List.foldl_nil, Nat.zero_mul,
            Nat.zero_add]
          exact digit_char_val (Nat.mod_lt _ (by omega))
        rw [hd]
        simp only [List.length_singleton, pow_one]
        omega

theorem digitsToNat_natToChars (n : Nat) : digitsToNat (natToChars n) = n := by
  unfold natToChars
  split
  · next h => simp [h, digitsToNat]
  · exact digitsToNat_natDigitsAux n n (le_refl n)

theorem natDigitsAux_length :
    ∀ f n k, n < 10 ^ k → (natDigitsAux f n).length ≤ k
  | 0, n, k, _ => by simp [natDigitsAux]
  | f + 1, n, k, h => by
      by_cases hn : n = 0
      · simp [natDigitsAux, hn]
      · cases k with
        | zero => simp at h; omega
        | succ k0 =>
            simp only [natDigitsAux, if_neg hn, List.length_cons]
            have : n / 10 < 10 ^ k0 := by
              rw [Nat.div_lt_iff_lt_mul (by norm_num)]
              calc n < 10 ^ (k0 + 1) := h
                _ = 10 ^ k0 * 10 := by ring
            exact Nat.succ_le_succ (natDigitsAux_length f (n / 10) k0 this)

theorem natToChars_length_le {n k : Nat} (h : n < 10 ^ k) (hk : 0 < k) :
    (natToChars n).length ≤ k := by
  unfold natToChars
  split
  · simpa using hk
  · simpa using natDigitsAux_length n n k h

theorem digitsToNat_replicate_zero (j : Nat) :
    digitsToNat (List.replicate j '0') = 0 := by
  induction j with
  | zero => simp [digitsToNat]
  | succ k ih =>
      rw [List.replicate_succ', digitsToNat_append, ih]
      have h0 : digitsToNat ['0'] = 0 := by decide
      rw [h0]
      ring
theorem stripTensF_of_ndvd (fuel : Nat) (m e : Int) (h : m % 10 ≠ 0) :
    stripTensF fuel m e = (m, e) := by
  cases fuel with
  | zero => rfl
  | succ f =>
      unfold stripTensF
      rw [if_neg]
      rintro ⟨_, h2⟩
      exact h h2

theorem stripTensF_pow :
    ∀ (n fuel : Nat) (m e0 : Int), m % 10 ≠ 0 → n ≤ fuel →
      stripTensF fuel (m * 10 ^ n) e0 = (m, e0 + n) := by
  intro n
  induction n with
  | zero =>
      intro fuel m e0 hm _
      simpa using stripTensF_of_ndvd fuel m e0 hm
  | succ n ih =>
      intro fuel m e0 hm hf
      have hm0 : m ≠ 0 := fun h => hm (by simp [h])
      cases fuel with
      | zero => omega
      | succ f =>
          unfold stripTensF
          rw [if_pos]
          · have hdiv : m * 10 ^ (n + 1) / 10 = m * 10 ^ n := by
              have : m * 10 ^ (n + 1) = m * 10 ^ n * 10 := by ring
              rw [this, Int.mul_ediv_cancel _ (by norm_num)]
            rw [hdiv, ih f m (e0 + 1) hm (by omega)]
            rw [Prod.mk.injEq]
            refine ⟨rfl, by push_cast; ring⟩
          · constructor
            · exact mul_ne_zero hm0 (pow_ne_zero _ (by norm_num))
            · have : (10 : Int) ∣ m * 10 ^ (n + 1) :=
                Dvd.dvd.mul_left (dvd_pow_self 10 (Nat.succ_ne_zero n)) m
              exact Int.emod_eq_zero_of_dvd this

theorem mkNum_pow (m : Int) (n : Nat) (hm : m % 10 ≠ 0) :
    mkNum (m * 10 ^ n) 0 = (m, (n : Int)) := by
  have hm0 : m ≠ 0 := fun h => hm (by simp [h])
  unfold mkNum
  rw [if_neg (mul_ne_zero hm0 (pow_ne_zero _ (by norm_num)))]
  rw [stripTensF_pow n _ m 0 hm]
  · simp
  · have h1 : n < 10 ^ n := Nat.lt_pow_self (by norm_num) n
    have h2 : 1 * 10 ^ n ≤ m.natAbs * 10 ^ n := by
      have : 1 ≤ m.natAbs := by omega
      exact Nat.mul_le_mul_right _ this
    have h3 : (m * 10 ^ n).natAbs = m.natAbs * 10 ^ n := by
      rw [Int.natAbs_mul, Int.natAbs_pow]
      norm_num
    omega

theorem mkNum_of_ndvd (m e : Int) (hm : m % 10 ≠ 0) : mkNum m e = (m, e) := by
  have hm0 : m ≠ 0 := fun h => hm (by simp [h])
  unfold mkNum
  rw [if_neg hm0]
  exact stripTensF_of_ndvd _ m e hm
theorem takeWhile_append_all (p : Char → Bool) :
    ∀ (A r : List Char), (∀ c ∈ A, p c = true) →
      (∀ c, r.head? = some c → p c = false) →
      (A ++ r).takeWhile p = A
  | [], r, _, hr => by
      cases r with
      | nil => rfl
      | cons c t =>
          simp only [List.nil_append, List.takeWhile_cons, hr c rfl,
            Bool.false_eq_true, if_false]
  | a :: A, r, hA, hr => by
      simp only [List.cons_append, List.takeWhile_cons, hA a (by simp), if_true]
      rw [takeWhile_append_all p A r (fun c hc => hA c (List.mem_cons_of_mem _ hc)) hr]

theorem takeWhile_all (p : Char → Bool) (A : List Char)
    (hA : ∀ c ∈ A, p c = true) : A.takeWhile p = A := by
  have := takeWhile_append_all p A [] hA (by intro c h; simp at h)
  simpa using this

theorem parseDecMag_int (N : Nat) : parseDecMag (natToChars N) = some (N, 0) := by
  unfold parseDecMag
  dsimp only
  rw [takeWhile_all isDig (natToChars N) (natToChars_all_digit N)]
  rw [List.drop_length]
  have hne : (natToChars N).length ≠ 0 := by
    intro h
    exact natToChars_ne_nil N (List.eq_nil_of_length_eq_zero h)
  simp only [parseExpPart, if_neg hne, digitsToNat_natToChars]

theorem parseDecMag_dec (ip fp k : Nat) (hk : 0 < k) (hfp : fp < 10 ^ k) :
    parseDecMag (natToChars ip ++
      '.' :: (List.replicate (k - (natToChars fp).length) '0' ++ natToChars fp)) =
    some (ip * 10 ^ k + fp, -(k : Int)) := by
  set F := List.replicate (k - (natToChars fp).length) '0' ++ natToChars fp with hF
  have hFdig : ∀ c ∈ F, isDig c = true := by
    intro c hc
    rw [hF] at hc
    rcases List.mem_append.mp hc with h | h
    · rw [List.eq_of_mem_replicate h]; decide
    · exact natToChars_all_digit fp c h
  have hFlen : F.length = k := by
    rw [hF, List.length_append, List.length_replicate]
    have := natToChars_length_le hfp hk
    omega
  unfold parseDecMag
  dsimp only
  rw [takeWhile_append_all isDig (natToChars ip) ('.' :: F)
    (natToChars_all_digit ip) (by intro c h; simp at h; rw [← h]; decide)]
  rw [List.drop_left]
  dsimp only
  rw [takeWhile_all isDig F hFdig, List.drop_length]
  have hsum : (natToChars ip).length + F.length ≠ 0 := by
    have : (natToChars ip).length ≠ 0 := by
      intro h
      exact natToChars_ne_nil ip (List.eq_nil_of_length_eq_zero h)
    omega
  rw [if_neg hsum]
  simp only [parseExpPart]
  have hdF : digitsToNat F = fp := by
    rw [hF, digitsToNat_append, digitsToNat_replicate_zero,
      digitsToNat_natToChars]
    ring
  rw [digitsToNat_append, digitsToNat_natToChars, hdF, hFlen]
  simp

theorem radixOf_of_digit {c : Char} (h : isDig c = true) : radixOf c = none := by
  simp only [isDig, Bool.and_eq_true, decide_eq_true_eq] at h
  unfold radixOf
  rw [if_neg, if_neg, if_neg]
  · rintro (rfl | rfl) <;> revert h <;> decide
  · rintro (rfl | rfl) <;> revert h <;> decide
  · rintro (rfl | rfl) <;> revert h <;> decide

theorem jsNumMag_decimal (l : List Char)
    (hhead : ∀ c, l.head? = some c → isDig c = true)
    (h2 : ∀ c ds, l = '0' :: c :: ds → radixOf c = none) :
    jsNumMag l = (parseDecMag l).map (fun p => finOf (p.1 : Int) p.2) := by
  have hinf : l ≠ str "Infinity" := by
    intro h
    have hI := hhead 'I' (by rw [h]; rfl)
    exact absurd hI (by decide)
  unfold jsNumMag
  rw [if_neg hinf]
  cases l with
  | nil => rfl
  | cons a l1 =>
      cases l1 with
      | nil => rfl
      | cons c ds =>
          dsimp only
          by_cases ha : a = '0'
          · subst ha
            rw [if_pos rfl, h2 c ds rfl]
          · rw [if_neg ha]
theorem head?_append_left {A r : List Char} (h : A ≠ []) :
    (A ++ r).head? = A.head? := by
  cases A with
  | nil => exact absurd rfl h
  | cons a t => rfl

theorem mem_of_head? {l : List Char} {c : Char} (h : l.head? = some c) : c ∈ l := by
  cases l with
  | nil => simp at h
  | cons a t =>
      simp only [List.head?_cons, Option.some_inj] at h
      simp [← h]

theorem jsNumber_cons (c : Char) (rest : List Char) :
    jsNumber (c :: rest) = if c = '+' then jsNumMag rest
      else if c = '-' then (jsNumMag rest).map JsNum.negate
      else jsNumMag (c :: rest) := rfl

theorem jsNumMag_magChars (a : Nat) (e : Int)
    (h0 : a = 0 → e = 0) (hd : a ≠ 0 → a % 10 ≠ 0) :
    jsNumMag (magChars a e) = some (.fin (a : Int) e) := by
  by_cases ha : a = 0
  · subst ha
    rw [h0 rfl]
    decide
  · by_cases he : 0 ≤ e
    · have hmag : magChars a e = natToChars (a * 10 ^ e.toNat) := by
        unfold magChars
        rw [if_pos he]
      rw [hmag]
      rw [jsNumMag_decimal _ (fun c hc => natToChars_all_digit _ c (mem_of_head? hc))
        (fun c ds hds => radixOf_of_digit
          (natToChars_all_digit _ c (by rw [hds]; simp)))]
      rw [parseDecMag_int]
      simp only [Option.map_some']
      congr 1
      have : ((a * 10 ^ e.toNat : Nat) : Int) = (a : Int) * 10 ^ e.toNat := by
        push_cast; ring
      unfold finOf
      rw [this, mkNum_pow _ _ (by
        intro hmod
        apply hd ha
        omega)]
      · simp only [JsNum.fin.injEq, true_and]
        exact Int.toNat_of_nonneg he
    · push_neg at he
      set k := (-e).toNat with hk
      have hkpos : 0 < k := by
        rw [hk]
        omega
      have hmag : magChars a e = natToChars (a / 10 ^ k) ++
          '.' :: (List.replicate (k - (natToChars (a % 10 ^ k)).length) '0' ++
            natToChars (a % 10 ^ k)) := by
        unfold magChars
        rw [if_neg (by omega)]
      have hAne : natToChars (a / 10 ^ k) ≠ [] := natToChars_ne_nil _
      rw [hmag]
      rw [jsNumMag_decimal]
      · rw [parseDecMag_dec _ _ k hkpos (Nat.mod_lt _ (Nat.pos_pow_of_pos k (by norm_num)))]
        simp only [Option.map_some']
        congr 1
        rw [Nat.div_add_mod']
        unfold finOf
        have hmod : ((a : Int)) % 10 ≠ 0 := by
          have := hd ha
          omega
        rw [mkNum_of_ndvd _ _ hmod]
        simp only [JsNum.fin.injEq, true_and]
        rw [hk]
        omega
      · intro c hc
        rw [head?_append_left hAne] at hc
        exact natToChars_all_digit _ c (mem_of_head? hc)
      · intro c ds hds
        cases hA : natToChars (a / 10 ^ k) with
        | nil => exact absurd hA hAne
        | cons a0 A0 =>
            rw [hA, List.cons_append] at hds
            have htail := List.tail_eq_of_cons_eq hds
            cases A0 with
            | nil =>
                simp only [List.nil_append] at htail
                have hdot : c = '.' := (List.head_eq_of_cons_eq htail).symm
                rw [hdot]
                rfl
            | cons a1 A1 =>
                simp only [List.cons_append] at htail
                have hc : c = a1 := (List.head_eq_of_cons_eq htail).symm
                rw [hc]
                exact radixOf_of_digit (natToChars_all_digit _ a1 (by rw [hA]; simp))

theorem jsNumber_printNum (m e : Int)
    (h0 : m = 0 → e = 0) (hd : m ≠ 0 → m % 10 ≠ 0) :
    jsNumber (printNum m e) = some (.fin m e) := by
  have habs0 : m.natAbs = 0 → e = 0 := by
    intro h
    exact h0 (by omega)
  have habsd : m.natAbs ≠ 0 → m.natAbs % 10 ≠ 0 := by
    intro h hmod
    have := hd (by omega)
    omega
  have hmagdig := jsNumMag_magChars m.natAbs e habs0 habsd
  by_cases hm : m < 0
  · have hp : printNum m e = '-' :: magChars m.natAbs e := by
      unfold printNum
      rw [if_pos hm]
      rfl
    rw [hp, jsNumber_cons]
    rw [if_neg (by decide), if_pos rfl, hmagdig]
    simp only [Option.map_some', JsNum.negate, Option.some_inj,
      JsNum.fin.injEq, and_true]
    omega
  · have hp : printNum m e = magChars m.natAbs e := by
      unfold printNum
      rw [if_neg hm]
      rfl
    rw [hp]
    have hfix : (m.natAbs : Int) = m := by omega
    cases hmag : magChars m.natAbs e with
    | nil =>
        exfalso
        unfold magChars at hmag
        split at hmag
        · exact natToChars_ne_nil _ hmag
        · exact natToChars_ne_nil _ (List.append_eq_nil.mp hmag).1
    | cons c rest =>
        have hcd : isDig c = true := by
          have : (magChars m.natAbs e).head? = some c := by rw [hmag]; rfl
          unfold magChars at this
          split at this
          · exact natToChars_all_digit _ c (mem_of_head? this)
          · rw [head?_append_left (natToChars_ne_nil _)] at this
            exact natToChars_all_digit _ c (mem_of_head? this)
        rw [jsNumber_cons]
        rw [if_neg (fun h => absurd (h ▸ hcd) (by decide)),
          if_neg (fun h => absurd (h ▸ hcd) (by decide))]
        rw [← hmag, hmagdig, hfix]
theorem isDig_not_ws {c : Char} (h : isDig c = true) : isJsWs c = false := by
  have hb : 48 ≤ c.toNat ∧ c.toNat ≤ 57 := by
    simpa only [isDig, Bool.and_eq_true, decide_eq_true_eq] using h
  have hne : ∀ x : Char, isDig x = false → (decide (c = x)) = false := by
    intro x hx
    rw [decide_eq_false_iff_not]
    intro he
    rw [he, hx] at h
    exact Bool.noConfusion h
  unfold isJsWs
  simp only [Bool.or_eq_false_iff, and_assoc]
  refine ⟨hne ' ' (by decide), hne '\t' (by decide), hne '\n' (by decide),
    hne '\r' (by decide), hne (Char.ofNat 0xb) (by decide),
    hne (Char.ofNat 0xc) (by decide), hne (Char.ofNat 0xa0) (by decide),
    hne (Char.ofNat 0x1680) (by decide), ?_, hne (Char.ofNat 0x2028) (by decide),
    hne (Char.ofNat 0x2029) (by decide), hne (Char.ofNat 0x202f) (by decide),
    hne (Char.ofNat 0x205f) (by decide), hne (Char.ofNat 0x3000) (by decide),
    hne (Char.ofNat 0xfeff) (by decide)⟩
  rw [Bool.and_eq_false_iff]
  left
  rw [decide_eq_false_iff_not]
  omega

/-- Everything a printed number's characters are not: no separator, fence,
quote, bracket or whitespace character ever appears in `printNum`. -/
theorem printNum_chars (m e : Int) :
    ∀ c ∈ printNum m e, isDig c = true ∨ c = '.' ∨ c = '-' := by
  intro c hc
  unfold printNum at hc
  rcases List.mem_append.mp hc with h | h
  · split at h
    · simp only [List.mem_singleton] at h
      exact Or.inr (Or.inr h)
    · simp at h
  · unfold magChars at h
    split at h
    · exact Or.inl (natToChars_all_digit _ c h)
    · rcases List.mem_append.mp h with h1 | h1
      · exact Or.inl (natToChars_all_digit _ c h1)
      · rcases List.mem_cons.mp h1 with h2 | h2
        · exact Or.inr (Or.inl h2)
        · rcases List.mem_append.mp h2 with h3 | h3
          · rw [List.eq_of_mem_replicate h3]
            left; decide
          · exact Or.inl (natToChars_all_digit _ c h3)

theorem printNum_char_facts (m e : Int) :
    ∀ c ∈ printNum m e, isJsWs c = false ∧ c ≠ ':' ∧ c ≠ '#' ∧ c ≠ '\n' ∧
      c ≠ ',' ∧ c ≠ qchar ∧ c ≠ squote ∧ c ≠ '[' ∧ c ≠ ']' := by
  intro c hc
  rcases printNum_chars m e c hc with h | h | h
  · refine ⟨isDig_not_ws h, ?_⟩
    simp only [isDig, Bool.and_eq_true, decide_eq_true_eq] at h
    refine ⟨?_, ?_, ?_, ?_, ?_, ?_, ?_, ?_⟩ <;>
      (intro he; subst he; revert h; decide)
  · subst h; refine ⟨by decide, ?_⟩; refine ⟨?_, ?_, ?_, ?_, ?_, ?_, ?_, ?_⟩ <;> decide
  · subst h; refine ⟨by decide, ?_⟩; refine ⟨?_, ?_, ?_, ?_, ?_, ?_, ?_, ?_⟩ <;> decide

theorem magChars_ne_nil (a : Nat) (e : Int) : magChars a e ≠ [] := by
  unfold magChars
  split
  · exact natToChars_ne_nil _
  · intro h
    exact natToChars_ne_nil _ (List.append_eq_nil.mp h).1

theorem printNum_ne_nil (m e : Int) : printNum m e ≠ [] := by
  unfold printNum
  intro h
  exact magChars_ne_nil m.natAbs e (List.append_eq_nil.mp h).2

theorem dropWhile_eq_self_of_head (p : Char → Bool) (l : List Char)
    (h : ∀ c, l.head? = some c → p c = false) : l.dropWhile p = l := by
  cases l with
  | nil => rfl
  | cons a t =>
      rw [List.dropWhile_cons, if_neg]
      rw [h a rfl]
      simp

theorem jsTrim_eq_self {l : List Char}
    (hh : ∀ c, l.head? = some c → isJsWs c = false)
    (hl : ∀ c, l.getLast? = some c → isJsWs c = false) : jsTrim l = l := by
  unfold jsTrim
  rw [dropWhile_eq_self_of_head _ l hh]
  rw [dropWhile_eq_self_of_head _ l.reverse
    (fun c hc => hl c (by rwa [List.head?_reverse] at hc))]
  exact List.reverse_reverse l

theorem mem_of_getLast? {l : List Char} {c : Char} (h : l.getLast? = some c) :
    c ∈ l := by
  rw [← List.head?_reverse] at h
  exact List.mem_reverse.mp (mem_of_head? h)

theorem jsTrim_all_not {l : List Char} (h : ∀ c ∈ l, isJsWs c = false) :
    jsTrim l = l :=
  jsTrim_eq_self (fun c hc => h c (mem_of_head? hc))
    (fun c hc => h c (mem_of_getLast? hc))

theorem jsTrim_cons_ws {c : Char} (l : List Char) (h : isJsWs c = true) :
    jsTrim (c :: l) = jsTrim l := by
  unfold jsTrim
  rw [List.dropWhile_cons, if_pos h]

theorem splitOnChar_cons (c x : Char) (xs : List Char) :
    splitOnChar c (x :: xs) = if x = c then [] :: splitOnChar c xs
      else match splitOnChar c xs with
        | [] => [[x]]
        | y :: ys => (x :: y) :: ys := rfl

theorem splitOnChar_not_mem (c : Char) :
    ∀ l, c ∉ l → splitOnChar c l = [l]
  | [], _ => rfl
  | x :: xs, h => by
      rw [splitOnChar_cons, if_neg (fun he => h (by rw [he]; simp))]
      rw [splitOnChar_not_mem c xs (fun hm => h (List.mem_cons_of_mem _ hm))]

theorem splitOnChar_append (c : Char) :
    ∀ a b, c ∉ a → splitOnChar c (a ++ c :: b) = a :: splitOnChar c b
  | [], b, _ => by
      simp only [List.nil_append]
      rw [splitOnChar_cons, if_pos rfl]
  | x :: xs, b, h => by
      simp only [List.cons_append]
      rw [splitOnChar_cons, if_neg (fun he => h (by rw [he]; simp))]
      rw [splitOnChar_append c xs b (fun hm => h (List.mem_cons_of_mem _ hm))]
/-- A string printed without quotes by `stringifyYamlValue`. -/
def plainStr (s : List Char) : Bool :=
  !(s.contains ':' || s.contains '#' || s.contains '\n')

/-- What an unquoted string must avoid to read back as itself: it must not
look like a quoted string, a boolean, null, an array, or a number. -/
def unquotedSafe (s : List Char) : Bool :=
  !(decide (s.head? = some squote ∧ s.getLast? = some squote)) &&
  !(decide (s = str "true")) && !(decide (s = str "false")) &&
  !(decide (s = str "null")) &&
  !(decide (s.head? = some '[' ∧ s.getLast? = some ']')) &&
  !isNumericJS s

/-- A string value that survives serialize-then-parse: no newline (a quoted
newline would split the line), no embedded double quote (the parser never
unescapes), trimmed, and if printed unquoted not mistakable for another
scalar shape. -/
def safeStrTop (s : List Char) : Bool :=
  !s.contains '\n' && !s.contains qchar && decide (jsTrim s = s) &&
  (!plainStr s || unquotedSafe s)

/-- The mantissa-exponent pair is in the canonical form `mkNum` produces. -/
def canonNum (m e : Int) : Bool :=
  decide ((m = 0 → e = 0) ∧ (m ≠ 0 → m % 10 ≠ 0))

mutual

/-- Values whose serialization parses back to the value itself. -/
def safeVal : YamlValue → Bool
  | .vstr s => safeStrTop s
  | .vbool _ => true
  | .vnull => true
  | .vnum m e => canonNum m e
  | .vinf _ => true
  | .varr items => safeElems items

def safeElems : List YamlValue → Bool
  | [] => true
  | v :: vs => safeElem v && safeElems vs

/-- An array element additionally must be a scalar whose serialization is
nonempty and comma-free, or the naive comma split would tear it apart. -/
def safeElem : YamlValue → Bool
  | .varr _ => false
  | .vstr s => safeStrTop s && !s.contains ',' && decide (s ≠ [])
  | .vbool _ => true
  | .vnull => true
  | .vnum m e => canonNum m e
  | .vinf _ => true

end

theorem escQuotes_eq_self : ∀ s : List Char, qchar ∉ s → escQuotes s = s
  | [], _ => rfl
  | c :: r, h => by
      unfold escQuotes
      rw [if_neg (fun he => h (by rw [he]; simp))]
      rw [escQuotes_eq_self r (fun hm => h (List.mem_cons_of_mem _ hm))]

theorem length_dropWhile_le (p : Char → Bool) :
    ∀ l : List Char, (l.dropWhile p).length ≤ l.length
  | [] => le_refl _
  | c :: t => by
      rw [List.dropWhile_cons]
      split
      · have := length_dropWhile_le p t
        simp only [List.length_cons]
        omega
      · exact le_refl _

theorem jsTrim_length_le (l : List Char) : (jsTrim l).length ≤ l.length := by
  unfold jsTrim
  calc ((l.dropWhile isJsWs).reverse.dropWhile isJsWs).reverse.length
      = ((l.dropWhile isJsWs).reverse.dropWhile isJsWs).length := by
        rw [List.length_reverse]
    _ ≤ (l.dropWhile isJsWs).reverse.length := length_dropWhile_le _ _
    _ = (l.dropWhile isJsWs).length := by rw [List.length_reverse]
    _ ≤ l.length := length_dropWhile_le _ _

theorem dropWhile_length_lt {l : List Char} {c : Char}
    (hc : l.head? = some c) (hw : isJsWs c = true) :
    (l.dropWhile isJsWs).length < l.length := by
  cases l with
  | nil => simp at hc
  | cons a t =>
      simp only [List.head?_cons, Option.some_inj] at hc
      subst hc
      rw [List.dropWhile_cons, if_pos hw]
      have := length_dropWhile_le isJsWs t
      simp only [List.length_cons]
      omega

theorem trimId_head {l : List Char} (h : jsTrim l = l) :
    ∀ c, l.head? = some c → isJsWs c = false := by
  intro c hc
  by_contra hw
  rw [Bool.not_eq_false] at hw
  have hlen : (jsTrim l).length = l.length := by rw [h]
  have h1 : (jsTrim l).length ≤ (l.dropWhile isJsWs).reverse.length := by
    unfold jsTrim
    rw [List.length_reverse]
    exact length_dropWhile_le _ _
  rw [List.length_reverse] at h1
  have h2 := dropWhile_length_lt hc hw
  omega

theorem trimId_last {l : List Char} (h : jsTrim l = l) :
    ∀ c, l.getLast? = some c → isJsWs c = false := by
  intro c hc
  by_contra hw
  rw [Bool.not_eq_false] at hw
  have hlen : (jsTrim l).length = l.length := by rw [h]
  have hlne : l ≠ [] := by
    intro he
    rw [he] at hc
    simp at hc
  set l1 := l.dropWhile isJsWs with hl1
  by_cases h1 : l1 = []
  · have : jsTrim l = [] := by
      unfold jsTrim
      rw [← hl1, h1]
      rfl
    rw [h] at this
    exact hlne this
  · have hl1last : l1.getLast? = some c := by
      have hdecomp : l.takeWhile isJsWs ++ l1 = l := by
        rw [hl1]
        exact List.takeWhile_append_dropWhile _ _
      rw [← hdecomp] at hc
      rwa [List.getLast?_append_of_ne_nil _ h1] at hc
    have hrevhead : l1.reverse.head? = some c := by
      rw [List.head?_reverse]
      exact hl1last
    have h2 : (l1.reverse.dropWhile isJsWs).length < l1.reverse.length :=
      dropWhile_length_lt hrevhead hw
    have h3 : (jsTrim l).length = (l1.reverse.dropWhile isJsWs).length := by
      unfold jsTrim
      rw [← hl1, List.length_reverse]
    have h4 : l1.length ≤ l.length := by
      rw [hl1]
      exact length_dropWhile_le _ _
    rw [List.length_reverse] at h2
    omega
theorem safeStrTop_parts {s : List Char} (h : safeStrTop s = true) :
    '\n' ∉ s ∧ qchar ∉ s ∧ jsTrim s = s ∧
    (plainStr s = true → unquotedSafe s = true) := by
  simp only [safeStrTop, Bool.and_eq_true, Bool.not_eq_true', Bool.or_eq_true,
    Bool.not_eq_true, decide_eq_true_eq] at h
  obtain ⟨⟨⟨h1, h2⟩, h3⟩, h4⟩ := h
  refine ⟨by simpa using h1, by simpa using h2, h3, ?_⟩
  intro hp
  rcases h4 with h4 | h4
  · rw [hp] at h4; exact absurd h4 (by simp)
  · exact h4

theorem quoted_str_form (s : List Char) :
    qchar :: escQuotes s ++ [qchar] = (qchar :: s) ++ [qchar] ∨ qchar ∈ s := by
  by_cases h : qchar ∈ s
  · exact Or.inr h
  · left
    rw [escQuotes_eq_self s h]

theorem stringify_elem_facts (v : YamlValue) (h : safeElem v = true) :
    stringifyYamlValue v ≠ [] ∧ (',' ∉ stringifyYamlValue v) ∧
    jsTrim (stringifyYamlValue v) = stringifyYamlValue v ∧
    ('\n' ∉ stringifyYamlValue v) := by
  cases v with
  | varr items => simp [safeElem] at h
  | vbool b => cases b <;> exact ⟨by decide, by decide, by decide, by decide⟩
  | vnull => exact ⟨by decide, by decide, by decide, by decide⟩
  | vinf b => cases b <;> exact ⟨by decide, by decide, by decide, by decide⟩
  | vnum m e =>
      refine ⟨printNum_ne_nil m e, ?_, ?_, ?_⟩
      · intro hm
        exact absurd rfl (printNum_char_facts m e ',' hm).2.2.2.2.1
      · exact jsTrim_all_not (fun c hc => (printNum_char_facts m e c hc).1)
      · intro hm
        exact absurd rfl (printNum_char_facts m e '\n' hm).2.2.2.1
  | vstr s =>
      simp only [safeElem, Bool.and_eq_true, Bool.not_eq_true',
        decide_eq_true_eq] at h
      obtain ⟨⟨htop, hcomma⟩, hne⟩ := h
      obtain ⟨hnl, hq, htrim, _⟩ := safeStrTop_parts htop
      have hcomma' : ',' ∉ s := by simpa using hcomma
      show _ ∧ (',' ∉ stringifyYamlValue (.vstr s)) ∧ _ ∧ _
      unfold stringifyYamlValue
      split
      · rcases quoted_str_form s with hform | habs
        · rw [hform]
          refine ⟨by simp, ?_, ?_, ?_⟩
          · intro hm
            rcases List.mem_append.mp hm with h1 | h1
            · rcases List.mem_cons.mp h1 with h2 | h2
              · exact absurd h2.symm (by decide)
              · exact hcomma' h2
            · simp only [List.mem_singleton] at h1
              exact absurd h1.symm (by decide)
          · apply jsTrim_eq_self
            · intro c hc
              simp only [List.cons_append, List.head?_cons, Option.some_inj] at hc
              rw [← hc]
              decide
            · intro c hc
              rw [List.getLast?_concat] at hc
              simp only [Option.some_inj] at hc
              rw [← hc]
              decide
          · intro hm
            rcases List.mem_append.mp hm with h1 | h1
            · rcases List.mem_cons.mp h1 with h2 | h2
              · exact absurd h2.symm (by decide)
              · exact hnl h2
            · simp only [List.mem_singleton] at h1
              exact absurd h1.symm (by decide)
        · exact absurd habs hq
      · exact ⟨hne, hcomma', htrim, hnl⟩
def sumLen (ps : List (List Char)) : Nat := (ps.map List.length).sum

theorem splitOnChar_sizes (c : Char) :
    ∀ l, sumLen (splitOnChar c l) + (splitOnChar c l).length = l.length + 1
  | [] => by simp [splitOnChar, sumLen]
  | x :: xs => by
      rw [splitOnChar_cons]
      have ih := splitOnChar_sizes c xs
      by_cases hx : x = c
      · rw [if_pos hx]
        simp only [sumLen, List.map_cons, List.sum_cons, List.length_nil,
          List.length_cons] at ih ⊢
        omega
      · rw [if_neg hx]
        cases hsp : splitOnChar c xs with
        | nil =>
            rw [hsp] at ih
            simp [sumLen] at ih
        | cons y ys =>
            rw [hsp] at ih
            simp only [sumLen, List.map_cons, List.sum_cons, List.length_cons] at ih ⊢
            omega

theorem stringifyYamlList_one (v : YamlValue) :
    stringifyYamlList [v] = stringifyYamlValue v := rfl

theorem stringifyYamlList_cons (v w : YamlValue) (vs : List YamlValue) :
    stringifyYamlList (v :: w :: vs) =
      stringifyYamlValue v ++ ',' :: ' ' :: stringifyYamlList (w :: vs) := rfl

theorem safeElems_cons {v : YamlValue} {vs : List YamlValue}
    (h : safeElems (v :: vs) = true) : safeElem v = true ∧ safeElems vs = true := by
  simpa only [safeElems, Bool.and_eq_true] using h

theorem stringifyYamlList_facts :
    ∀ vs : List YamlValue, safeElems vs = true → vs ≠ [] →
      stringifyYamlList vs ≠ [] ∧
      (∀ c, (stringifyYamlList vs).head? = some c → isJsWs c = false) ∧
      (∀ c, (stringifyYamlList vs).getLast? = some c → isJsWs c = false) ∧
      ('\n' ∉ stringifyYamlList vs)
  | [], _, hne => absurd rfl hne
  | [v], hsafe, _ => by
      obtain ⟨hel, _⟩ := safeElems_cons hsafe
      obtain ⟨hne, _, htrim, hnl⟩ := stringify_elem_facts v hel
      rw [stringifyYamlList_one]
      exact ⟨hne, trimId_head htrim, trimId_last htrim, hnl⟩
  | v :: w :: vs, hsafe, _ => by
      obtain ⟨hel, hrest⟩ := safeElems_cons hsafe
      obtain ⟨hne, _, htrim, hnl⟩ := stringify_elem_facts v hel
      obtain ⟨ihne, _, ihlast, ihnl⟩ :=
        stringifyYamlList_facts (w :: vs) hrest (by simp)
      rw [stringifyYamlList_cons]
      refine ⟨by simp, ?_, ?_, ?_⟩
      · intro c hc
        rw [head?_append_left hne] at hc
        exact trimId_head htrim c hc
      · intro c hc
        rw [List.getLast?_append_of_ne_nil _ (by simp)] at hc
        have : (',' :: ' ' :: stringifyYamlList (w :: vs)).getLast? =
            (stringifyYamlList (w :: vs)).getLast? := by
          show (([','] ++ [' ']) ++ stringifyYamlList (w :: vs)).getLast? = _
          exact List.getLast?_append_of_ne_nil _ ihne
        rw [this] at hc
        exact ihlast c hc
      · intro hm
        rcases List.mem_append.mp hm with h1 | h1
        · exact hnl h1
        · rcases List.mem_cons.mp h1 with h2 | h2
          · exact absurd h2.symm (by decide)
          · rcases List.mem_cons.mp h2 with h3 | h3
            · exact absurd h3.symm (by decide)
            · exact ihnl h3

def trimMatches : List (List Char) → List YamlValue → Prop
  | [], [] => True
  | p :: ps, v :: vs => jsTrim p = stringifyYamlValue v ∧ trimMatches ps vs
  | _, _ => False

theorem trimMatches_retrim {p p' : List Char} {ps : List (List Char)}
    {vs : List YamlValue} (h : trimMatches (p :: ps) vs)
    (he : jsTrim p' = jsTrim p) : trimMatches (p' :: ps) vs := by
  cases vs with
  | nil => exact absurd h (by simp [trimMatches])
  | cons v vs =>
      obtain ⟨h1, h2⟩ := h
      exact ⟨he.trans h1, h2⟩

theorem split_stringifyList :
    ∀ vs : List YamlValue, safeElems vs = true → vs ≠ [] →
      trimMatches (splitOnChar ',' (stringifyYamlList vs)) vs
  | [], _, hne => absurd rfl hne
  | [v], hsafe, _ => by
      obtain ⟨hel, _⟩ := safeElems_cons hsafe
      obtain ⟨_, hcomma, htrim, _⟩ := stringify_elem_facts v hel
      rw [stringifyYamlList_one, splitOnChar_not_mem ',' _ hcomma]
      exact ⟨htrim, trivial⟩
  | v :: w :: vs, hsafe, _ => by
      obtain ⟨hel, hrest⟩ := safeElems_cons hsafe
      obtain ⟨_, hcomma, htrim, _⟩ := stringify_elem_facts v hel
      have ih := split_stringifyList (w :: vs) hrest (by simp)
      rw [stringifyYamlList_cons]
      rw [splitOnChar_append ',' _ _ hcomma]
      refine ⟨htrim, ?_⟩
      rw [splitOnChar_cons, if_neg (by decide)]
      cases hsp : splitOnChar ',' (stringifyYamlList (w :: vs)) with
      | nil =>
          rw [hsp] at ih
          exact absurd ih (by simp [trimMatches])
      | cons y ys =>
          rw [hsp] at ih
          exact trimMatches_retrim ih (jsTrim_cons_ws y (by decide))

theorem safeElem_safeVal {v : YamlValue} (h : safeElem v = true) :
    safeVal v = true := by
  cases v with
  | varr items => simp [safeElem] at h
  | vstr s =>
      simp only [safeElem, Bool.and_eq_true] at h
      simpa only [safeVal] using h.1.1
  | vbool b => rfl
  | vnull => rfl
  | vnum m e => simpa only [safeElem] using h
  | vinf b => rfl

theorem unquotedSafe_parts {s : List Char} (h : unquotedSafe s = true) :
    ¬(s.head? = some squote ∧ s.getLast? = some squote) ∧
    s ≠ str "true" ∧ s ≠ str "false" ∧ s ≠ str "null" ∧
    ¬(s.head? = some '[' ∧ s.getLast? = some ']') ∧ jsNumber s = none := by
  simp only [unquotedSafe, Bool.and_eq_true, Bool.not_eq_true',
    decide_eq_false_iff_not, ne_eq] at h
  obtain ⟨⟨⟨⟨⟨h1, h2⟩, h3⟩, h4⟩, h5⟩, h6⟩ := h
  refine ⟨h1, h2, h3, h4, h5, ?_⟩
  rw [isNumericJS] at h6
  exact Option.not_isSome_iff_eq_none.mp (by simp [h6])
theorem parseYamlValueF_succ (f : Nat) (value : List Char) :
    parseYamlValueF (f + 1) value =
      (if value.head? = some qchar ∧ value.getLast? = some qchar then
        .vstr ((value.drop 1).dropLast)
      else if value.head? = some squote ∧ value.getLast? = some squote then
        .vstr ((value.drop 1).dropLast)
      else if value = str "true" then .vbool true
      else if value = str "false" then .vbool false
      else if value = str "null" then .vnull
      else if value.head? = some '[' ∧ value.getLast? = some ']' then
        (if jsTrim ((value.drop 1).dropLast) = [] then .varr []
         else .varr (parseYamlItemsF f (splitOnChar ',' ((value.drop 1).dropLast))))
      else
        match jsNumber value with
        | some (.fin m e) => .vnum m e
        | some (.inf b) => .vinf b
        | none => .vstr value) := rfl

theorem parseYamlItemsF_succ (f : Nat) (p : List Char) (ps : List (List Char)) :
    parseYamlItemsF (f + 1) (p :: ps) =
      parseYamlValueF f (jsTrim p) :: parseYamlItemsF f ps := rfl

theorem parseYamlItemsF_nil (fuel : Nat) : parseYamlItemsF fuel [] = [] := by
  cases fuel <;> rfl

mutual

theorem parse_stringify_valF : ∀ (v : YamlValue) (fuel : Nat),
    safeVal v = true → (stringifyYamlValue v).length < fuel →
    parseYamlValueF fuel (stringifyYamlValue v) = v
  | _, 0, _, hf => absurd hf (by omega)
  | .vbool true, f + 1, _, _ => by
      rw [show stringifyYamlValue (.vbool true) = str "true" from rfl,
        parseYamlValueF_succ]
      rw [if_neg (by decide), if_neg (by decide), if_pos rfl]
  | .vbool false, f + 1, _, _ => by
      rw [show stringifyYamlValue (.vbool false) = str "false" from rfl,
        parseYamlValueF_succ]
      rw [if_neg (by decide), if_neg (by decide), if_neg (by decide), if_pos rfl]
  | .vnull, f + 1, _, _ => by
      rw [show stringifyYamlValue .vnull = str "null" from rfl,
        parseYamlValueF_succ]
      rw [if_neg (by decide), if_neg (by decide), if_neg (by decide),
        if_neg (by decide), if_pos rfl]
  | .vinf false, f + 1, _, _ => by
      rw [show stringifyYamlValue (.vinf false) = str "Infinity" from rfl,
        parseYamlValueF_succ]
      rw [if_neg (by decide), if_neg (by decide), if_neg (by decide),
        if_neg (by decide), if_neg (by decide), if_neg (by decide)]
      rw [show jsNumber (str "Infinity") = some (.inf false) from by decide]
  | .vinf true, f + 1, _, _ => by
      rw [show stringifyYamlValue (.vinf true) = str "-Infinity" from rfl,
        parseYamlValueF_succ]
      rw [if_neg (by decide), if_neg (by decide), if_neg (by decide),
        if_neg (by decide), if_neg (by decide), if_neg (by decide)]
      rw [show jsNumber (str "-Infinity") = some (.inf true) from by decide]
  | .vnum m e, f + 1, hsafe, _ => by
      have hcanon : (m = 0 → e = 0) ∧ (m ≠ 0 → m % 10 ≠ 0) := by
        simpa only [safeVal, canonNum, decide_eq_true_eq] using hsafe
      have hsv : stringifyYamlValue (.vnum m e) = printNum m e := rfl
      have hfacts := printNum_char_facts m e
      have hlit : ∀ t : List Char, (∀ c ∈ t, printNum m e = t → False) →
          printNum m e ≠ t := fun t ht he => by
        cases hh : (printNum m e).head? with
        | none =>
            exact printNum_ne_nil m e (by
              cases hpn : printNum m e with
              | nil => rfl
              | cons a l => rw [hpn] at hh; simp at hh)
        | some c =>
            exact ht c (by rw [← he]; exact mem_of_head? hh) he
      rw [hsv, parseYamlValueF_succ]
      rw [if_neg (fun hc => absurd rfl
          (hfacts qchar (mem_of_head? hc.1)).2.2.2.2.2.1),
        if_neg (fun hc => absurd rfl
          (hfacts squote (mem_of_head? hc.1)).2.2.2.2.2.2.1),
        if_neg (fun he => by
          have hm : 't' ∈ printNum m e := by rw [he]; decide
          rcases printNum_chars m e 't' hm with h | h | h <;> revert h <;> decide),
        if_neg (fun he => by
          have hm : 'f' ∈ printNum m e := by rw [he]; decide
          rcases printNum_chars m e 'f' hm with h | h | h <;> revert h <;> decide),
        if_neg (fun he => by
          have hm : 'n' ∈ printNum m e := by rw [he]; decide
          rcases printNum_chars m e 'n' hm with h | h | h <;> revert h <;> decide),
        if_neg (fun hc => absurd rfl
          (hfacts '[' (mem_of_head? hc.1)).2.2.2.2.2.2.2.1)]
      rw [jsNumber_printNum m e hcanon.1 hcanon.2]
  | .vstr s, f + 1, hsafe, _ => by
      have htop : safeStrTop s = true := by simpa only [safeVal] using hsafe
      obtain ⟨hnl, hq, htrim, hplain⟩ := safeStrTop_parts htop
      have hsv : stringifyYamlValue (.vstr s) =
          (if s.contains ':' || s.contains '#' || s.contains '\n' then
            qchar :: escQuotes s ++ [qchar] else s) := rfl
      cases hcond : (s.contains ':' || s.contains '#' || s.contains '\n') with
      | true =>
          rw [hsv, hcond, if_pos rfl, escQuotes_eq_self s hq]
          have hform : qchar :: s ++ [qchar] = (qchar :: s) ++ [qchar] := rfl
          rw [parseYamlValueF_succ]
          rw [if_pos ⟨rfl, by rw [hform]; exact List.getLast?_concat _⟩]
          show YamlValue.vstr ((s ++ [qchar]).dropLast) = _
          rw [List.dropLast_concat]
      | false =>
          have hplain' : plainStr s = true := by
            simp only [plainStr, hcond]
            rfl
          obtain ⟨hsq, htrue, hfalse, hnull, hbr, hnum⟩ :=
            unquotedSafe_parts (hplain hplain')
          have hqhead : ¬(s.head? = some qchar ∧ s.getLast? = some qchar) := by
            rintro ⟨hh, _⟩
            exact hq (mem_of_head? hh)
          rw [hsv, hcond, if_neg (by simp), parseYamlValueF_succ]
          rw [if_neg hqhead, if_neg hsq, if_neg htrue, if_neg hfalse,
            if_neg hnull, if_neg hbr, hnum]
  | .varr [], f + 1, _, _ => by
      rw [show stringifyYamlValue (.varr []) = str "[]" from rfl,
        parseYamlValueF_succ]
      rw [if_neg (by decide), if_neg (by decide), if_neg (by decide),
        if_neg (by decide), if_neg (by decide), if_pos (by decide),
        if_pos (by decide)]
  | .varr (w :: ws), f + 1, hsafe, hflen => by
      have hsafeitems : safeElems (w :: ws) = true := by
        simpa only [safeVal] using hsafe
      obtain ⟨hJne, hJhead, hJlast, hJnl⟩ :=
        stringifyYamlList_facts (w :: ws) hsafeitems (by simp)
      have hsv : stringifyYamlValue (.varr (w :: ws)) =
          '[' :: stringifyYamlList (w :: ws) ++ [']'] := rfl
      set J := stringifyYamlList (w :: ws) with hJ
      have hlast : ('[' :: J ++ [']']).getLast? = some ']' := by
        rw [show '[' :: J ++ [']'] = ('[' :: J) ++ [']'] from rfl]
        exact List.getLast?_concat _
      have hac : (('[' :: J ++ [']']).drop 1).dropLast = J := by
        rw [show ('[' :: J ++ [']']).drop 1 = J ++ [']'] from rfl]
        exact List.dropLast_concat
      have htrimJ : jsTrim J = J := jsTrim_eq_self hJhead hJlast
      have hbound : sumLen (splitOnChar ',' J) + (splitOnChar ',' J).length < f := by
        have hsz := splitOnChar_sizes ',' J
        have hlen : ('[' :: J ++ [']']).length = J.length + 2 := by
          simp
        rw [hsv] at hflen
        rw [hlen] at hflen
        omega
      have hhead : ('[' :: J ++ [']']).head? = some '[' := rfl
      have hnq : ¬(('[' :: J ++ [']']).head? = some qchar ∧
          ('[' :: J ++ [']']).getLast? = some qchar) := by
        rintro ⟨hh, _⟩
        rw [hhead] at hh
        exact absurd hh (by decide)
      have hnsq : ¬(('[' :: J ++ [']']).head? = some squote ∧
          ('[' :: J ++ [']']).getLast? = some squote) := by
        rintro ⟨hh, _⟩
        rw [hhead] at hh
        exact absurd hh (by decide)
      have hlit : ∀ c : Char, ∀ t : List Char, t.head? = some c → c ≠ '[' →
          ('[' :: J ++ [']']) ≠ t := by
        rintro c t hh hc he
        have hhh := congrArg List.head? he
        rw [hhead, hh] at hhh
        exact hc (Option.some.inj hhh).symm
      rw [hsv, parseYamlValueF_succ]
      rw [if_neg hnq, if_neg hnsq,
        if_neg (hlit 't' (str "true") rfl (by decide)),
        if_neg (hlit 'f' (str "false") rfl (by decide)),
        if_neg (hlit 'n' (str "null") rfl (by decide)),
        if_pos ⟨hhead, hlast⟩, hac]
      rw [if_neg (fun he => hJne (htrimJ ▸ he))]
      rw [parse_stringify_itemsF (w :: ws) (splitOnChar ',' J) f hsafeitems
        (split_stringifyList (w :: ws) hsafeitems (by simp)) hbound]

theorem parse_stringify_itemsF : ∀ (vs : List YamlValue) (ps : List (List Char))
    (fuel : Nat), safeElems vs = true → trimMatches ps vs →
    sumLen ps + ps.length < fuel → parseYamlItemsF fuel ps = vs
  | [], [], fuel, _, _, _ => parseYamlItemsF_nil fuel
  | [], _ :: _, _, _, hm, _ => absurd hm (by simp [trimMatches])
  | _ :: _, [], _, _, hm, _ => absurd hm (by simp [trimMatches])
  | v :: vs, p :: ps, fuel, hsafe, hm, hfuel => by
      obtain ⟨hel, hrest⟩ := safeElems_cons hsafe
      obtain ⟨h1, h2⟩ := hm
      simp only [sumLen, List.map_cons, List.sum_cons, List.length_cons] at hfuel
      obtain ⟨f, rfl⟩ : ∃ f, fuel = f + 1 := ⟨fuel - 1, by omega⟩
      rw [parseYamlItemsF_succ, h1]
      have hlen : (stringifyYamlValue v).length < f := by
        have hle := jsTrim_length_le p
        rw [h1] at hle
        omega
      rw [parse_stringify_valF v f (safeElem_safeVal hel) hlen]
      rw [parse_stringify_itemsF vs ps f hrest h2 (by
        simp only [sumLen]
        omega)]

end

/-- Serializing a safe value and parsing the result returns the value. -/
theorem parseYamlValue_stringify (v : YamlValue) (h : safeVal v = true) :
    parseYamlValue (stringifyYamlValue v) = v :=
  parse_stringify_valF v ((stringifyYamlValue v).length + 1) h (by omega)
/-- Keys that survive `stringifyYaml` then `parseYamlLike`: nonempty,
trimmed, free of colons and newlines, and not starting a comment. -/
def safeKey (k : List Char) : Bool :=
  decide (k ≠ []) && !k.contains ':' && !k.contains '\n' &&
  decide (jsTrim k = k) && !(decide (k.head? = some '#'))

/-- A frontmatter object that round-trips: safe distinct keys, safe values
with nonempty serializations. -/
def safeFm (m : List (List Char × YamlValue)) : Bool :=
  m.all (fun p => safeKey p.1 && safeVal p.2 &&
    decide (stringifyYamlValue p.2 ≠ [])) &&
  decide ((objKeys m).Nodup)

theorem safeKey_parts {k : List Char} (h : safeKey k = true) :
    k ≠ [] ∧ ':' ∉ k ∧ '\n' ∉ k ∧ jsTrim k = k ∧ ¬(k.head? = some '#') := by
  simp only [safeKey, Bool.and_eq_true, Bool.not_eq_true',
    decide_eq_true_eq, decide_eq_false_iff_not] at h
  obtain ⟨⟨⟨⟨h1, h2⟩, h3⟩, h4⟩, h5⟩ := h
  exact ⟨h1, by simpa using h2, by simpa using h3, h4, h5⟩

theorem stringify_val_top_facts (v : YamlValue) (h : safeVal v = true) :
    '\n' ∉ stringifyYamlValue v ∧
    jsTrim (stringifyYamlValue v) = stringifyYamlValue v := by
  cases v with
  | vstr s =>
      obtain ⟨hnl, hq, htrim, _⟩ :=
        safeStrTop_parts (by simpa only [safeVal] using h)
      have hsv : stringifyYamlValue (.vstr s) =
          (if s.contains ':' || s.contains '#' || s.contains '\n' then
            qchar :: escQuotes s ++ [qchar] else s) := rfl
      cases hcond : (s.contains ':' || s.contains '#' || s.contains '\n') with
      | true =>
          rw [hsv, hcond, if_pos rfl, escQuotes_eq_self s hq]
          constructor
          · intro hm
            rcases List.mem_append.mp hm with h1 | h1
            · rcases List.mem_cons.mp h1 with h2 | h2
              · exact absurd h2 (by decide)
              · exact hnl h2
            · simp only [List.mem_singleton] at h1
              exact absurd h1 (by decide)
          · refine jsTrim_eq_self ?_ ?_
            · intro c hc
              rw [show (qchar :: s ++ [qchar]).head? = some qchar from rfl] at hc
              rw [← Option.some.inj hc]
              decide
            · intro c hc
              rw [show qchar :: s ++ [qchar] = (qchar :: s) ++ [qchar] from rfl,
                List.getLast?_concat] at hc
              rw [← Option.some.inj hc]
              decide
      | false =>
          rw [hsv, hcond, if_neg (by simp)]
          exact ⟨hnl, htrim⟩
  | vbool b =>
      cases b
      · exact ⟨by decide, jsTrim_all_not (by decide)⟩
      · exact ⟨by decide, jsTrim_all_not (by decide)⟩
  | vnull => exact ⟨by decide, jsTrim_all_not (by decide)⟩
  | vinf b =>
      cases b
      · exact ⟨by decide, jsTrim_all_not (by decide)⟩
      · exact ⟨by decide, jsTrim_all_not (by decide)⟩
  | vnum m e =>
      have hfacts := printNum_char_facts m e
      have hsv : stringifyYamlValue (.vnum m e) = printNum m e := rfl
      rw [hsv]
      exact ⟨fun hm => (hfacts '\n' hm).2.2.2.1 rfl,
        jsTrim_all_not (fun c hm => (hfacts c hm).1)⟩
  | varr items =>
      cases items with
      | nil => exact ⟨by decide, jsTrim_all_not (by decide)⟩
      | cons w ws =>
          have hsafeitems : safeElems (w :: ws) = true := by
            simpa only [safeVal] using h
          obtain ⟨hJne, hJhead, hJlast, hJnl⟩ :=
            stringifyYamlList_facts (w :: ws) hsafeitems (by simp)
          have hsv : stringifyYamlValue (.varr (w :: ws)) =
              '[' :: stringifyYamlList (w :: ws) ++ [']'] := rfl
          rw [hsv]
          constructor
          · intro hm
            rcases List.mem_append.mp hm with h1 | h1
            · rcases List.mem_cons.mp h1 with h2 | h2
              · exact absurd h2 (by decide)
              · exact hJnl h2
            · simp only [List.mem_singleton] at h1
              exact absurd h1 (by decide)
          · refine jsTrim_eq_self ?_ ?_
            · intro c hc
              rw [show ('[' :: stringifyYamlList (w :: ws) ++ [']']).head? =
                some '[' from rfl] at hc
              rw [← Option.some.inj hc]
              decide
            · intro c hc
              rw [show '[' :: stringifyYamlList (w :: ws) ++ [']'] =
                ('[' :: stringifyYamlList (w :: ws)) ++ [']'] from rfl,
                List.getLast?_concat] at hc
              rw [← Option.some.inj hc]
              decide

/-- The `key: value` line `stringifyYaml` writes for one entry. -/
def entryLine (p : List Char × YamlValue) : List Char :=
  p.1 ++ ':' :: ' ' :: stringifyYamlValue p.2

theorem stringifyYaml_acc : ∀ (m : List (List Char × YamlValue)) (acc : List Char),
    m.foldl (fun result q =>
      result ++ q.1 ++ ':' :: ' ' :: stringifyYamlValue q.2 ++ ['\n']) acc =
    acc ++ stringifyYaml m
  | [], acc => by simp [stringifyYaml]
  | p :: t, acc => by
      simp only [List.foldl_cons]
      rw [stringifyYaml_acc t]
      have h1 : stringifyYaml (p :: t) = t.foldl
          (fun result q =>
            result ++ q.1 ++ ':' :: ' ' :: stringifyYamlValue q.2 ++ ['\n'])
          ([] ++ p.1 ++ ':' :: ' ' :: stringifyYamlValue p.2 ++ ['\n']) := rfl
      rw [h1, stringifyYaml_acc t]
      simp [List.append_assoc]

theorem stringifyYaml_nil : stringifyYaml [] = [] := rfl

theorem stringifyYaml_cons (p : List Char × YamlValue)
    (t : List (List Char × YamlValue)) :
    stringifyYaml (p :: t) = entryLine p ++ '\n' :: stringifyYaml t := by
  have h1 : stringifyYaml (p :: t) = t.foldl
      (fun result q =>
        result ++ q.1 ++ ':' :: ' ' :: stringifyYamlValue q.2 ++ ['\n'])
      ([] ++ p.1 ++ ':' :: ' ' :: stringifyYamlValue p.2 ++ ['\n']) := rfl
  rw [h1, stringifyYaml_acc t]
  simp [entryLine, List.append_assoc]

theorem entryLine_no_newline {p : List Char × YamlValue} (hk : safeKey p.1 = true)
    (hv : safeVal p.2 = true) : '\n' ∉ entryLine p := by
  obtain ⟨_, _, hknl, _, _⟩ := safeKey_parts hk
  obtain ⟨hvnl, _⟩ := stringify_val_top_facts p.2 hv
  intro hm
  rcases List.mem_append.mp hm with h1 | h1
  · exact hknl h1
  · rcases List.mem_cons.mp h1 with h2 | h2
    · exact absurd h2 (by decide)
    · rcases List.mem_cons.mp h2 with h3 | h3
      · exact absurd h3 (by decide)
      · exact hvnl h3

theorem split_stringifyYaml : ∀ m : List (List Char × YamlValue),
    (∀ p ∈ m, '\n' ∉ entryLine p) →
    splitOnChar '\n' (stringifyYaml m) = m.map entryLine ++ [[]]
  | [], _ => by rw [stringifyYaml_nil]; rfl
  | p :: t, h => by
      rw [stringifyYaml_cons]
      rw [splitOnChar_append '\n' _ _ (h p (by simp))]
      rw [split_stringifyYaml t (fun q hq => h q (List.mem_cons_of_mem _ hq))]
      simp
theorem findIdx?_acc (q : Char → Bool) :
    ∀ (A : List Char) (s : Nat), (∀ c ∈ A, q c = false) →
      ∀ (x : Char) (r : List Char), q x = true →
      List.findIdx? q (A ++ x :: r) s = some (s + A.length)
  | [], s, _, x, r, hx => by
      show List.findIdx? q (x :: r) s = some (s + ([] : List Char).length)
      rw [show List.findIdx? q (x :: r) s =
        (if q x then some s else List.findIdx? q r (s + 1)) from rfl]
      rw [if_pos hx]
      simp
  | a :: A, s, hA, x, r, hx => by
      show List.findIdx? q (a :: (A ++ x :: r)) s = _
      rw [show List.findIdx? q (a :: (A ++ x :: r)) s =
        (if q a then some s else List.findIdx? q (A ++ x :: r) (s + 1)) from rfl]
      rw [if_neg (by rw [hA a (List.mem_cons_self a A)]; simp)]
      rw [findIdx?_acc q A (s + 1) (fun c hc => hA c (List.mem_cons_of_mem _ hc))
        x r hx]
      simp only [List.length_cons]
      congr 1
      omega

/-- The per-line step of `parseYamlLike`. -/
def yamlLineStep (result : List (List Char × YamlValue)) (line : List Char) :
    List (List Char × YamlValue) :=
  if jsTrim line = [] then result
  else if (jsTrim line).head? = some '#' then result
  else
    match (jsTrim line).findIdx? (· = ':') with
    | none => result
    | some i =>
        objInsert result (jsTrim ((jsTrim line).take i))
          (parseYamlValue (jsTrim ((jsTrim line).drop (i + 1))))

theorem parseYamlLike_eq_fold (y : List Char) :
    parseYamlLike y = (splitOnChar '\n' y).foldl yamlLineStep [] := rfl

theorem yamlLineStep_nil_line (result : List (List Char × YamlValue)) :
    yamlLineStep result [] = result := rfl

theorem yamlLineStep_entry (p : List Char × YamlValue) (hk : safeKey p.1 = true)
    (hv : safeVal p.2 = true) (hne : stringifyYamlValue p.2 ≠ [])
    (result : List (List Char × YamlValue)) :
    yamlLineStep result (entryLine p) = objInsert result p.1 p.2 := by
  obtain ⟨hkne, hkcolon, _, hktrim, hkhash⟩ := safeKey_parts hk
  obtain ⟨_, hvtrim⟩ := stringify_val_top_facts p.2 hv
  have hline : entryLine p = p.1 ++ ':' :: ' ' :: stringifyYamlValue p.2 := rfl
  have hhead : ∀ c, (p.1 ++ ':' :: ' ' :: stringifyYamlValue p.2).head? = some c →
      isJsWs c = false := by
    intro c hc
    rw [head?_append_left hkne] at hc
    exact trimId_head hktrim c hc
  have hlast : ∀ c, (p.1 ++ ':' :: ' ' :: stringifyYamlValue p.2).getLast? =
      some c → isJsWs c = false := by
    intro c hc
    rw [List.getLast?_append_of_ne_nil _ (by simp)] at hc
    have h2 : (':' :: ' ' :: stringifyYamlValue p.2).getLast? =
        (stringifyYamlValue p.2).getLast? := by
      show (([':'] ++ [' ']) ++ stringifyYamlValue p.2).getLast? = _
      exact List.getLast?_append_of_ne_nil _ hne
    rw [h2] at hc
    exact trimId_last hvtrim c hc
  have htrimline : jsTrim (p.1 ++ ':' :: ' ' :: stringifyYamlValue p.2) =
      p.1 ++ ':' :: ' ' :: stringifyYamlValue p.2 := jsTrim_eq_self hhead hlast
  have hlne : p.1 ++ ':' :: ' ' :: stringifyYamlValue p.2 ≠ [] := by
    cases hp1 : p.1 with
    | nil => exact absurd hp1 hkne
    | cons a t => simp
  have hnothash : ¬((p.1 ++ ':' :: ' ' :: stringifyYamlValue p.2).head? =
      some '#') := by
    intro hc
    rw [head?_append_left hkne] at hc
    exact hkhash hc
  have hfind : (p.1 ++ ':' :: ' ' :: stringifyYamlValue p.2).findIdx?
      (· = ':') = some p.1.length := by
    have hres := findIdx?_acc (fun c => decide (c = ':')) p.1 0
      (fun c hc => by
        simp only [decide_eq_false_iff_not]
        intro he
        rw [he] at hc
        exact hkcolon hc)
      ':' (' ' :: stringifyYamlValue p.2) (by simp)
    rw [show (0 : Nat) + p.1.length = p.1.length from by omega] at hres
    exact hres
  have htake : (p.1 ++ ':' :: ' ' :: stringifyYamlValue p.2).take p.1.length =
      p.1 := List.take_left p.1 _
  have hdrop : (p.1 ++ ':' :: ' ' :: stringifyYamlValue p.2).drop
      (p.1.length + 1) = ' ' :: stringifyYamlValue p.2 := by
    have h3 : p.1 ++ ':' :: ' ' :: stringifyYamlValue p.2 =
        (p.1 ++ [':']) ++ ' ' :: stringifyYamlValue p.2 := by simp
    have h4 : (p.1 ++ [':']).length = p.1.length + 1 := by simp
    rw [h3, ← h4]
    exact List.drop_left _ _
  unfold yamlLineStep
  rw [hline, htrimline, if_neg hlne, if_neg hnothash, hfind]
  show objInsert result
      (jsTrim ((p.1 ++ ':' :: ' ' :: stringifyYamlValue p.2).take p.1.length))
      (parseYamlValue (jsTrim ((p.1 ++ ':' :: ' ' ::
        stringifyYamlValue p.2).drop (p.1.length + 1)))) =
    objInsert result p.1 p.2
  rw [htake, hdrop, hktrim, jsTrim_cons_ws _ (by decide), hvtrim,
    parseYamlValue_stringify p.2 hv]

theorem parse_lines_fold : ∀ (m : List (List Char × YamlValue))
    (acc : List (List Char × YamlValue)),
    (∀ p ∈ m, safeKey p.1 = true ∧ safeVal p.2 = true ∧
      stringifyYamlValue p.2 ≠ []) →
    (m.map entryLine ++ [[]]).foldl yamlLineStep acc =
      m.foldl (fun r p => objInsert r p.1 p.2) acc
  | [], acc, _ => by
      simp only [List.map_nil, List.nil_append, List.foldl_cons, List.foldl_nil]
      rw [yamlLineStep_nil_line]
  | p :: t, acc, h => by
      simp only [List.map_cons, List.cons_append, List.foldl_cons]
      obtain ⟨hk, hv, hne⟩ := h p (by simp)
      rw [yamlLineStep_entry p hk hv hne acc]
      exact parse_lines_fold t _ (fun q hq => h q (List.mem_cons_of_mem _ hq))

theorem safeFm_parts {m : List (List Char × YamlValue)} (h : safeFm m = true) :
    (∀ p ∈ m, safeKey p.1 = true ∧ safeVal p.2 = true ∧
      stringifyYamlValue p.2 ≠ []) ∧ (objKeys m).Nodup := by
  simp only [safeFm, Bool.and_eq_true, List.all_eq_true, decide_eq_true_eq] at h
  obtain ⟨h1, h2⟩ := h
  refine ⟨fun p hp => ?_, h2⟩
  have h3 := h1 p hp
  simp only [Bool.and_eq_true, decide_eq_true_eq] at h3
  exact ⟨h3.1.1, h3.1.2, h3.2⟩

theorem parseYamlLike_stringifyYaml (m : List (List Char × YamlValue))
    (h : safeFm m = true) : parseYamlLike (stringifyYaml m) = m := by
  obtain ⟨hall, hnd⟩ := safeFm_parts h
  have hnl : ∀ p ∈ m, '\n' ∉ entryLine p := fun p hp =>
    entryLine_no_newline (hall p hp).1 (hall p hp).2.1
  rw [parseYamlLike_eq_fold, split_stringifyYaml m hnl,
    parse_lines_fold m [] hall,
    objInsert_foldl_of_disjoint m [] (fun k _ => by simp [objKeys]) hnd]
  simp
/-- **C1** (counterexample): the mapping parsed from `q: "true"` is a
parser-produced frontmatter mapping whose value is the *string* `true`,
but serializing it drops the quotes (`stringifyYamlValue` only quotes
strings containing `:`, `#` or a newline) and re-parsing turns the value
into the *boolean* `true`, so the round trip does not preserve the typed
value; the claim's "in particular" sentence fails. -/
theorem c1_quoted_string_not_preserved :
    parseYamlLike (str "q: \"true\"") = [(str "q", .vstr (str "true"))] ∧
    parseYamlLike (stringifyYaml (parseYamlLike (str "q: \"true\""))) =
      [(str "q", .vbool true)] ∧
    parseYamlLike (stringifyYaml (parseYamlLike (str "q: \"true\""))) ≠
      parseYamlLike (str "q: \"true\"") := by decide

/-- **C1** (amended): serialize-then-parse is the identity on every
frontmatter mapping that is `safeFm`: keys are nonempty, trimmed, contain
no colon or newline and do not start `#`, no key repeats, and every value
is `safeVal` with nonempty serialization — booleans, null, infinities,
canonical finite numbers, newline- and double-quote-free trimmed strings
that are not mistakable for another scalar when printed unquoted, and
arrays of such scalars that are additionally comma-free and nonempty.
Quoted strings whose text looks like a boolean, null or number are
excluded: they do not survive (see the counterexample). -/
theorem yaml_roundtrip_on_safe_mappings (m : List (List Char × YamlValue))
    (h : safeFm m = true) : parseYamlLike (stringifyYaml m) = m :=
  parseYamlLike_stringifyYaml m h

theorem yaml_roundtrip_on_safe_mappings_witness :
    safeFm [(str "title", .vstr (str "My Note: B")), (str "count", .vnum 42 0),
      (str "tags", .varr [.vstr (str "a"), .vstr (str "b")]),
      (str "done", .vbool true)] = true ∧
    parseYamlLike (stringifyYaml [(str "title", .vstr (str "My Note: B")),
      (str "count", .vnum 42 0),
      (str "tags", .varr [.vstr (str "a"), .vstr (str "b")]),
      (str "done", .vbool true)]) =
    [(str "title", .vstr (str "My Note: B")), (str "count", .vnum 42 0),
      (str "tags", .varr [.vstr (str "a"), .vstr (str "b")]),
      (str "done", .vbool true)] :=
  ⟨by decide, yaml_roundtrip_on_safe_mappings _ (by decide)⟩
theorem objLookup_nil {κ α : Type} [DecidableEq κ] (k : κ) :
    objLookup ([] : List (κ × α)) k = none := rfl

theorem objLookup_cons {κ α : Type} [DecidableEq κ] (q : κ × α)
    (m : List (κ × α)) (k : κ) :
    objLookup (q :: m) k = if q.1 = k then some q.2 else objLookup m k := by
  unfold objLookup
  by_cases h : q.1 = k
  · rw [List.find?_cons_of_pos _ (by simpa using h), if_pos h]
    rfl
  · rw [List.find?_cons_of_neg _ (by simpa using h), if_neg h]

theorem objLookup_none_of_not_mem {κ α : Type} [DecidableEq κ] :
    ∀ (m : List (κ × α)) (k : κ), k ∉ objKeys m → objLookup m k = none
  | [], _, _ => rfl
  | q :: t, k, h => by
      rw [objLookup_cons, if_neg (fun he => h (by
        simp only [objKeys, List.map_cons, List.mem_cons]
        exact Or.inl he.symm))]
      exact objLookup_none_of_not_mem t k (fun hm => h (by
        simp only [objKeys, List.map_cons, List.mem_cons]
        exact Or.inr hm))

theorem find_map_overwrite {κ α : Type} [DecidableEq κ] (k : κ) (v : α) :
    ∀ m : List (κ × α), m.any (fun p => p.1 = k) = true →
      (m.map (fun p => if p.1 = k then (k, v) else p)).find?
        (fun p => p.1 = k) = some (k, v)
  | [], h => by simp at h
  | q :: t, h => by
      simp only [List.map_cons]
      by_cases hq : q.1 = k
      · rw [if_pos hq]
        rw [List.find?_cons_of_pos _ (by simp)]
      · rw [if_neg hq]
        rw [List.find?_cons_of_neg _ (by simpa using hq)]
        apply find_map_overwrite k v t
        simp only [List.any_cons, Bool.or_eq_true, decide_eq_true_eq] at h
        rcases h with h | h
        · exact absurd h hq
        · simpa using h

theorem find?_cons_eq {β : Type} (p : β → Bool) (a : β) (l : List β) :
    (a :: l).find? p = if p a then some a else l.find? p := by
  by_cases h : p a = true
  · rw [List.find?_cons_of_pos _ h, if_pos h]
  · rw [List.find?_cons_of_neg _ (by simpa using h), if_neg (by simpa using h)]

theorem find_map_other {κ α : Type} [DecidableEq κ] (k k2 : κ) (v : α)
    (hne : k2 ≠ k) :
    ∀ m : List (κ × α),
      (m.map (fun p => if p.1 = k then (k, v) else p)).find?
        (fun p => p.1 = k2) = m.find? (fun p => p.1 = k2)
  | [] => rfl
  | q :: t => by
      simp only [List.map_cons]
      by_cases hq : q.1 = k
      · have h1 : ¬(decide (((k, v) : κ × α).1 = k2) = true) := by
          simp only [decide_eq_true_eq]
          exact fun he => hne he.symm
        have h2 : ¬(decide (q.1 = k2) = true) := by
          simp only [decide_eq_true_eq, hq]
          exact fun he => hne he.symm
        rw [if_pos hq]
        simp only [find?_cons_eq]
        rw [if_neg h1, if_neg h2]
        exact find_map_other k k2 v hne t
      · rw [if_neg hq]
        simp only [find?_cons_eq]
        by_cases hq2 : decide (q.1 = k2) = true
        · rw [if_pos hq2, if_pos hq2]
        · rw [if_neg hq2, if_neg hq2]
          exact find_map_other k k2 v hne t

theorem objLookup_insert_self {κ α : Type} [DecidableEq κ] (m : List (κ × α))
    (k : κ) (v : α) : objLookup (objInsert m k v) k = some v := by
  unfold objInsert
  cases ha : m.any (fun p => p.1 = k) with
  | true =>
      rw [if_pos rfl]
      unfold objLookup
      rw [find_map_overwrite k v m ha]
      rfl
  | false =>
      rw [if_neg (by simp)]
      unfold objLookup
      rw [List.find?_append]
      rw [List.find?_eq_none.mpr (fun p hp => by
        simp only [decide_eq_true_eq]
        rw [List.any_eq_false] at ha
        have hpa := ha p hp
        simpa using hpa)]
      rw [List.find?_cons_of_pos _ (by simp)]
      rfl

theorem objLookup_insert_other {κ α : Type} [DecidableEq κ] (m : List (κ × α))
    (k k2 : κ) (v : α) (hne : k2 ≠ k) :
    objLookup (objInsert m k v) k2 = objLookup m k2 := by
  unfold objInsert
  cases ha : m.any (fun p => p.1 = k) with
  | true =>
      rw [if_pos rfl]
      unfold objLookup
      rw [find_map_other k k2 v hne m]
  | false =>
      rw [if_neg (by simp)]
      unfold objLookup
      rw [List.find?_append]
      rw [show List.find? (fun p => decide (p.1 = k2)) [(k, v)] = none from
        List.find?_eq_none.mpr (fun p hp => by
          simp only [List.mem_singleton] at hp
          rw [hp]
          simp only [decide_eq_true_eq]
          exact fun he => hne he.symm)]
      rw [Option.or_none]

/-- The object spread `{...a, ...b}` of `updateFileFrontmatter`
(src/unnamed/part_007 line 92): keys of `a` in order, values overridden by
`b` where present, then the new keys of `b`. -/
def jsSpreadMerge {κ α : Type} [DecidableEq κ] (a b : List (κ × α)) :
    List (κ × α) :=
  b.foldl (fun m p => objInsert m p.1 p.2) a

theorem jsSpreadMerge_lookup {κ α : Type} [DecidableEq κ] :
    ∀ (b a : List (κ × α)), (objKeys b).Nodup →
      ∀ k, objLookup (jsSpreadMerge a b) k =
        (objLookup b k).or (objLookup a k)
  | [], a, _, k => by
      simp only [jsSpreadMerge, List.foldl_nil, objLookup_nil]
      rfl
  | (j, v) :: rest, a, hnd, k => by
      have hnd2 : (objKeys rest).Nodup ∧ j ∉ objKeys rest := by
        simp only [objKeys, List.map_cons, List.nodup_cons] at hnd
        exact ⟨hnd.2, hnd.1⟩
      have hstep : jsSpreadMerge a ((j, v) :: rest) =
          jsSpreadMerge (objInsert a j v) rest := rfl
      rw [hstep, jsSpreadMerge_lookup rest (objInsert a j v) hnd2.1 k]
      by_cases hk : j = k
      · subst hk
        rw [objLookup_none_of_not_mem rest j hnd2.2, objLookup_insert_self,
          objLookup_cons]
        simp
      · rw [objLookup_insert_other a j k v (fun he => hk he.symm),
          objLookup_cons, if_neg hk]
/-- `MarkdownUtils.stringifyMarkdown` (src/unnamed/part_003 lines 147-154):
an empty frontmatter object leaves the content untouched; otherwise the
serialized YAML is wrapped in `---` fences and put before the content. -/
def stringifyMarkdown (frontmatter : List (List Char × YamlValue))
    (content : List Char) : List Char :=
  if frontmatter = [] then content
  else str "---\n" ++ stringifyYaml frontmatter ++ str "---\n\n" ++ content

/-- `FileProcessor.updateFileFrontmatter` (src/unnamed/part_007 lines
86-101): the text written back, as a function of the freshly parsed
frontmatter and body of the file's current content and of the supplied
update map. The merge is the object spread
`{...parsed.frontmatter, ...newFrontmatter}` of line 92 and the body is
passed through to `stringifyMarkdown` unchanged. -/
def updateFileFrontmatter (parsedFm : List (List Char × YamlValue))
    (parsedContent : List Char) (newFm : List (List Char × YamlValue)) :
    List Char :=
  stringifyMarkdown (jsSpreadMerge parsedFm newFm) parsedContent

/-- **C5**: `updateFileFrontmatter` merges the supplied map into the
freshly parsed frontmatter with incoming keys winning on conflict — for
every key, the merged value is the update map's value when that key is
present there and otherwise the freshly parsed (on-disk) value — and the
serialized text it writes carries the parsed body content unchanged:
verbatim when the merged frontmatter is empty, otherwise verbatim after
the closing `---` fence and blank line. -/
theorem updateFileFrontmatter_merge_and_body
    (parsedFm newFm : List (List Char × YamlValue)) (body : List Char)
    (hnew : (objKeys newFm).Nodup) :
    (∀ k, objLookup (jsSpreadMerge parsedFm newFm) k =
      (objLookup newFm k).or (objLookup parsedFm k)) ∧
    (jsSpreadMerge parsedFm newFm = [] →
      updateFileFrontmatter parsedFm body newFm = body) ∧
    (jsSpreadMerge parsedFm newFm ≠ [] →
      updateFileFrontmatter parsedFm body newFm =
        str "---\n" ++ stringifyYaml (jsSpreadMerge parsedFm newFm) ++
          str "---\n\n" ++ body) := by
  refine ⟨jsSpreadMerge_lookup newFm parsedFm hnew, ?_, ?_⟩
  · intro he
    unfold updateFileFrontmatter stringifyMarkdown
    rw [if_pos he]
  · intro hne
    unfold updateFileFrontmatter stringifyMarkdown
    rw [if_neg hne]

theorem updateFileFrontmatter_merge_and_body_witness :
    ((objKeys [(str "status", YamlValue.vstr (str "done")),
        (str "count", YamlValue.vnum 3 0)]).Nodup ∧
      objLookup (jsSpreadMerge
        [(str "title", YamlValue.vstr (str "Old")),
         (str "status", YamlValue.vstr (str "draft"))]
        [(str "status", YamlValue.vstr (str "done")),
         (str "count", YamlValue.vnum 3 0)]) (str "status") =
        some (YamlValue.vstr (str "done")) ∧
      objLookup (jsSpreadMerge
        [(str "title", YamlValue.vstr (str "Old")),
         (str "status", YamlValue.vstr (str "draft"))]
        [(str "status", YamlValue.vstr (str "done")),
         (str "count", YamlValue.vnum 3 0)]) (str "title") =
        some (YamlValue.vstr (str "Old"))) ∧
    updateFileFrontmatter
      [(str "title", YamlValue.vstr (str "Old")),
       (str "status", YamlValue.vstr (str "draft"))]
      (str "Body text")
      [(str "status", YamlValue.vstr (str "done")),
       (str "count", YamlValue.vnum 3 0)] =
      str "---\n" ++ stringifyYaml (jsSpreadMerge
        [(str "title", YamlValue.vstr (str "Old")),
         (str "status", YamlValue.vstr (str "draft"))]
        [(str "status", YamlValue.vstr (str "done")),
         (str "count", YamlValue.vnum 3 0)]) ++
        str "---\n\n" ++ str "Body text" := by
  have h := updateFileFrontmatter_merge_and_body
    [(str "title", YamlValue.vstr (str "Old")),
     (str "status", YamlValue.vstr (str "draft"))]
    [(str "status", YamlValue.vstr (str "done")),
     (str "count", YamlValue.vnum 3 0)]
    (str "Body text") (by decide)
  exact ⟨⟨by decide, h.1 (str "status") |>.trans (by decide),
    h.1 (str "title") |>.trans (by decide)⟩, h.2.2 (by decide)⟩
/-- A directory tree: what `glob` walks under the analyzed directory. -/
inductive FsEntry
  | file (name : List Char)
  | dir (name : List Char) (children : List FsEntry)

def fsName : FsEntry → List Char
  | .file n => n
  | .dir n _ => n

/-- A name beginning with a dot: skipped by `glob` patterns when the `dot`
option is off, as in `VaultManager.analyzeDirectory`. -/
def isDotName (n : List Char) : Bool := n.head? = some '.'

/-- Whether a single path component matches the `*.md` part of the
`**/*.md` pattern of src/src/core/vault-manager.js line 79: it does not
start with a dot and ends in `.md`, case-sensitively. -/
def globMdName (n : List Char) : Bool :=
  !(decide (n.head? = some '.')) && decide (3 ≤ n.length) &&
  decide (n.drop (n.length - 3) = str ".md")

/-- The `ignore: ['node_modules/**', '.git/**', '.obsidian/**']` option of
the same glob call, which prunes those top-level subtrees. -/
def ignoredTop (n : List Char) : Bool :=
  n = str "node_modules" || n = str ".git" || n = str ".obsidian"

mutual

/-- How many entries of the subtree rooted at `e` the `**/*.md` glob
returns: dot-named entries are not matched and dot-named directories are
not descended into. -/
def mdCountEntry : FsEntry → Nat
  | .file n => if globMdName n = true then 1 else 0
  | .dir n ch =>
      if isDotName n = true then 0
      else (if globMdName n = true then 1 else 0) + mdCountEntries ch

def mdCountEntries : List FsEntry → Nat
  | [] => 0
  | e :: rest => mdCountEntry e + mdCountEntries rest

end

mutual

/-- The names the same walk matches, in order. -/
def mdNamesEntry : FsEntry → List (List Char)
  | .file n => if globMdName n = true then [n] else []
  | .dir n ch =>
      if isDotName n = true then []
      else (if globMdName n = true then [n] else []) ++ mdNames ch

def mdNames : List FsEntry → List (List Char)
  | [] => []
  | e :: rest => mdNamesEntry e ++ mdNames rest

end

/-- What `fs.stat(dirPath)` and the walk can reveal about the path. -/
inductive StatResult
  | inaccessible
  | notDir
  | dir (hasObsidianFolder : Bool) (children : List FsEntry)

structure VaultInfo where
  isVault : Bool
  hasObsidianFolder : Bool
  markdownFiles : Nat
deriving DecidableEq

/-- `VaultManager.analyzeDirectory` (src/src/core/vault-manager.js lines
57-95): defaults returned when `fs.stat` throws or the path is not a
directory; otherwise `markdownFiles` is the `**/*.md` glob count with the
ignored subtrees pruned, and `isVault` is `hasObsidianFolder ||
markdownFiles > 0`. -/
def analyzeDirectory : StatResult → VaultInfo
  | .inaccessible => ⟨false, false, 0⟩
  | .notDir => ⟨false, false, 0⟩
  | .dir hasObs children =>
      ⟨hasObs || decide (0 <
          mdCountEntries (children.filter (fun e => !ignoredTop (fsName e)))),
        hasObs,
        mdCountEntries (children.filter (fun e => !ignoredTop (fsName e)))⟩

/-- `path.extname` of a bare file name: from the last dot to the end,
empty when there is no dot or the only dot is the leading character. -/
def extname (n : List Char) : List Char :=
  if (n.reverse.takeWhile (fun c => !(c = '.'))).length + 1 < n.length then
    '.' :: (n.reverse.takeWhile (fun c => !(c = '.'))).reverse
  else []

def lowerChars (l : List Char) : List Char := l.map Char.toLower

/-- `FileUtils.isMarkdownFile` (src/src/utils/file-utils.js lines 45-48). -/
def isMarkdownFile (filePath : List Char) : Bool :=
  lowerChars (extname filePath) = str ".md" ||
  lowerChars (extname filePath) = str ".markdown" ||
  lowerChars (extname filePath) = str ".mdown" ||
  lowerChars (extname filePath) = str ".mkd"
mutual

theorem mdCountEntry_eq_names : ∀ e : FsEntry,
    mdCountEntry e = (mdNamesEntry e).length
  | .file n => by
      unfold mdCountEntry mdNamesEntry
      by_cases h : globMdName n = true
      · rw [if_pos h, if_pos h]
        rfl
      · rw [if_neg h, if_neg h]
        rfl
  | .dir n ch => by
      unfold mdCountEntry mdNamesEntry
      by_cases hd : isDotName n = true
      · rw [if_pos hd, if_pos hd]
        rfl
      · rw [if_neg hd, if_neg hd, List.length_append,
          mdCountEntries_eq_names ch]
        by_cases h : globMdName n = true
        · rw [if_pos h, if_pos h]
          rfl
        · rw [if_neg h, if_neg h]
          rfl

theorem mdCountEntries_eq_names : ∀ l : List FsEntry,
    mdCountEntries l = (mdNames l).length
  | [] => rfl
  | e :: rest => by
      unfold mdCountEntries mdNames
      rw [List.length_append, mdCountEntry_eq_names e,
        mdCountEntries_eq_names rest]

end

mutual

theorem mdNamesEntry_glob : ∀ (e : FsEntry) (n : List Char),
    n ∈ mdNamesEntry e → globMdName n = true
  | .file m, n, h => by
      unfold mdNamesEntry at h
      by_cases hg : globMdName m = true
      · rw [if_pos hg] at h
        simp only [List.mem_singleton] at h
        rw [h]
        exact hg
      · rw [if_neg hg] at h
        simp at h
  | .dir m ch, n, h => by
      unfold mdNamesEntry at h
      by_cases hd : isDotName m = true
      · rw [if_pos hd] at h
        simp at h
      · rw [if_neg hd] at h
        rcases List.mem_append.mp h with h1 | h1
        · by_cases hg : globMdName m = true
          · rw [if_pos hg] at h1
            simp only [List.mem_singleton] at h1
            rw [h1]
            exact hg
          · rw [if_neg hg] at h1
            simp at h1
        · exact mdNames_glob ch n h1

theorem mdNames_glob : ∀ (l : List FsEntry) (n : List Char),
    n ∈ mdNames l → globMdName n = true
  | e :: rest, n, h => by
      unfold mdNames at h
      rcases List.mem_append.mp h with h1 | h1
      · exact mdNamesEntry_glob e n h1
      · exact mdNames_glob rest n h1

end

theorem globMd_isMarkdownFile (n : List Char) (h : globMdName n = true) :
    isMarkdownFile n = true := by
  simp only [globMdName, Bool.and_eq_true, Bool.not_eq_true',
    decide_eq_true_eq, decide_eq_false_iff_not] at h
  obtain ⟨⟨hdot, hlen⟩, hsuf⟩ := h
  have hsplit : n.take (n.length - 3) ++ str ".md" = n := by
    rw [← hsuf]
    exact List.take_append_drop _ n
  have hlen4 : 4 ≤ n.length := by
    by_contra hlt
    have h0 : n.length - 3 = 0 := by omega
    rw [h0] at hsplit
    have hmd : str ".md" = n := by simpa using hsplit
    rw [← hmd] at hdot
    exact hdot rfl
  set A := n.take (n.length - 3) with hA
  have hrev : n.reverse = 'd' :: 'm' :: '.' :: A.reverse := by
    rw [← hsplit, List.reverse_append]
    rfl
  have htw : n.reverse.takeWhile (fun c => !(c = '.')) = ['d', 'm'] := by
    rw [hrev]
    rfl
  unfold isMarkdownFile extname
  rw [htw]
  have hc : (['d', 'm'] : List Char).length + 1 < n.length := by
    simp only [List.length_cons, List.length_nil]
    omega
  rw [if_pos hc]
  decide

/-- **C2** (counterexample): a directory holding the single file
`note.markdown` — an extension `FileUtils.isMarkdownFile` accepts — is
reported with `markdownFiles = 0` and `isVault = false`, because
`analyzeDirectory` counts only the `**/*.md` glob, not the four
case-insensitive markdown extensions the claim describes. -/
theorem c2_markdown_extension_not_counted :
    isMarkdownFile (str "note.markdown") = true ∧
    analyzeDirectory (.dir false [FsEntry.file (str "note.markdown")]) =
      { isVault := false, hasObsidianFolder := false, markdownFiles := 0 } := by
  decide

/-- **C2** (amended): `analyzeDirectory` on a readable directory counts
exactly the entries the `**/*.md` walk matches — names that end in `.md`
case-sensitively, do not start with a dot, are not inside a dot-named
directory and not inside a top-level ignored subtree; every such name is
in particular accepted by `isMarkdownFile`, but files with the other
markdown extensions (`.markdown`, `.mdown`, `.mkd`, or upper-case
variants) are not counted. `isVault` is true iff the `.obsidian` marker
was found or that count is positive. -/
theorem analyzeDirectory_counts_glob_md (hasObs : Bool)
    (children : List FsEntry) :
    (analyzeDirectory (.dir hasObs children)).markdownFiles =
      (mdNames (children.filter (fun e => !ignoredTop (fsName e)))).length ∧
    (∀ n ∈ mdNames (children.filter (fun e => !ignoredTop (fsName e))),
      globMdName n = true ∧ isMarkdownFile n = true) ∧
    ((analyzeDirectory (.dir hasObs children)).isVault = true ↔
      hasObs = true ∨
        0 < (analyzeDirectory (.dir hasObs children)).markdownFiles) := by
  refine ⟨mdCountEntries_eq_names _, ?_, ?_⟩
  · intro n hn
    have hg := mdNames_glob _ n hn
    exact ⟨hg, globMd_isMarkdownFile n hg⟩
  · show (hasObs || decide (0 < _)) = true ↔ _
    cases hasObs <;> simp [analyzeDirectory]

/-- **C3**: `analyzeDirectory` fails soft — an inaccessible path or one
that is not a directory yields the all-default descriptor rather than an
exception — and on a readable directory `isVault` holds exactly when the
`.obsidian` folder is present or the markdown count is positive. -/
theorem analyzeDirectory_fails_soft (r : StatResult) :
    ((r = .inaccessible ∨ r = .notDir) →
      analyzeDirectory r =
        { isVault := false, hasObsidianFolder := false, markdownFiles := 0 }) ∧
    ((analyzeDirectory r).isVault = true ↔
      (analyzeDirectory r).hasObsidianFolder = true ∨
        0 < (analyzeDirectory r).markdownFiles) := by
  cases r with
  | inaccessible => exact ⟨fun _ => rfl, by simp [analyzeDirectory]⟩
  | notDir => exact ⟨fun _ => rfl, by simp [analyzeDirectory]⟩
  | dir hasObs children =>
      constructor
      · intro h
        rcases h with h | h <;> cases h
      · show (hasObs || decide (0 < _)) = true ↔ hasObs = true ∨ 0 < _
        cases hasObs <;> simp [analyzeDirectory]
/-- `FileProcessor.moveFile` (src/unnamed/part_007 lines 106-116) against a
set of existing paths: `fs.move` succeeds when the source exists and the
destination does not (the non-overwrite default), and otherwise throws;
on success the source path is replaced by the destination path. -/
def moveFile (files : List (List Char)) (src dst : List Char) :
    Option (List (List Char)) :=
  if files.contains src && !files.contains dst then
    some (dst :: files.filter (fun f => !(f = src)))
  else none

structure MoveResult where
  successCount : Nat
  errors : List (List Char × List Char)
  files : List (List Char)

/-- The `for (const operation of operations)` loop of
`FileOrganizer.executeMoveOperations` (src/src/tools/file-organizer.js
lines 322-333): each failure is pushed to `errors` and the loop goes on. -/
def execMoves : List (List Char × List Char) → List (List Char) → MoveResult
  | [], files => ⟨0, [], files⟩
  | (s, d) :: rest, files =>
      match moveFile files s d with
      | some files2 =>
          let r := execMoves rest files2
          ⟨r.successCount + 1, r.errors, r.files⟩
      | none =>
          let r := execMoves rest files
          ⟨r.successCount, (s, d) :: r.errors, r.files⟩

/-- `FileOrganizer.executeMoveOperations` (src/src/tools/file-organizer.js
lines 312-339): the preview gate returns early with nothing executed when
the user declines; otherwise the loop runs over every operation. -/
def executeMoveOperations (proceed : Bool)
    (ops : List (List Char × List Char)) (files : List (List Char)) :
    Option MoveResult :=
  if proceed then some (execMoves ops files) else none

theorem execMoves_accounting : ∀ (ops : List (List Char × List Char))
    (files : List (List Char)),
    (execMoves ops files).successCount + (execMoves ops files).errors.length =
      ops.length ∧
    (execMoves ops files).errors.Sublist ops
  | [], files => by simp [execMoves]
  | (s, d) :: rest, files => by
      unfold execMoves
      cases hm : moveFile files s d with
      | some files2 =>
          have ih := execMoves_accounting rest files2
          simp only []
          refine ⟨?_, ?_⟩
          · simp only [List.length_cons]
            omega
          · exact ih.2.cons _
      | none =>
          have ih := execMoves_accounting rest files
          simp only []
          refine ⟨?_, ?_⟩
          · simp only [List.length_cons]
            omega
          · exact ih.2.cons₂ _

/-- **C4**: with the preview accepted, the apply loop runs every
operation in order and never aborts: `successCount` plus the number of
collected failures equals the number of operations (so with exactly `K`
failures it reports `N - K` successes and `K` errors), the failure list
is a sublist of the operations in input order, and a single operation
fails exactly when its source is missing or its destination already
exists under the non-overwrite policy. -/
theorem executeMoveOperations_accounting
    (ops : List (List Char × List Char)) (files : List (List Char)) :
    executeMoveOperations true ops files = some (execMoves ops files) ∧
    (execMoves ops files).successCount + (execMoves ops files).errors.length =
      ops.length ∧
    (execMoves ops files).errors.Sublist ops ∧
    (∀ (fs : List (List Char)) (s d : List Char),
      moveFile fs s d = none ↔ (fs.contains s = false ∨ fs.contains d = true)) :=
  ⟨rfl, (execMoves_accounting ops files).1, (execMoves_accounting ops files).2,
    fun fs s d => by
      unfold moveFile
      cases hs : fs.contains s <;> cases hd : fs.contains d <;> simp⟩
/-- The `\s*\n` part of the fence regexes of src/src/utils/file-utils.js
line 92 (and src/unnamed/part_003 line 25) applied at the current
position: the greedy `\s*` with backtracking consumes the whitespace run
up to and including its last newline; no newline in the run means no
match. -/
def fenceTail (l : List Char) : Option (List Char) :=
  match (l.takeWhile isJsWs).reverse.findIdx? (fun c => c = '\n') with
  | none => none
  | some k => some (l.drop ((l.takeWhile isJsWs).length - k))

/-- The lazy scan of `([\s\S]*?)\n---\s*\n`: the earliest newline followed
by `---` and a matching `\s*\n` closes the frontmatter; the characters
before it are the raw frontmatter, the characters after it the remaining
content. -/
def findClose : List Char → Option (List Char × List Char)
  | [] => none
  | c :: rest =>
      if hc : c = '\n' then
        match rest with
        | '-' :: '-' :: '-' :: r2 =>
            match fenceTail r2 with
            | some tail => some ([], tail)
            | none =>
                match findClose rest with
                | some (b, t) => some (c :: b, t)
                | none => none
        | _ =>
            match findClose rest with
            | some (b, t) => some (c :: b, t)
            | none => none
      else
        match findClose rest with
        | some (b, t) => some (c :: b, t)
        | none => none

/-- The frontmatter-fence regex `^---\s*\n([\s\S]*?)\n---\s*\n` of
`FileUtils.analyzeMarkdownFile` (src/src/utils/file-utils.js line 92):
`some (raw, rest)` is the captured group and the text left when
`content.replace` removes the whole match. -/
def fenceSplit (content : List Char) : Option (List Char × List Char) :=
  match content with
  | '-' :: '-' :: '-' :: rest =>
      match fenceTail rest with
      | none => none
      | some afterOpen => findClose afterOpen
  | _ => none

/-- One application of `.replace(/^["']|["']$/g, '')`: drop one leading
and one trailing single or double quote. -/
def stripLeadQuote : List Char → List Char
  | [] => []
  | c :: r => if c = qchar ∨ c = squote then r else c :: r

def stripEdgeQuotes (s : List Char) : List Char :=
  (stripLeadQuote (stripLeadQuote s).reverse).reverse

/-- The value coercion of the simple frontmatter parser in
`FileUtils.analyzeMarkdownFile` (src/src/utils/file-utils.js lines
105-113): bracketed values split on commas into trimmed quote-stripped
strings, `true`/`false` to booleans, numeric text through `Number`,
anything else a quote-stripped string. -/
def coerceFmValue (value : List Char) : YamlValue :=
  if value.head? = some '[' ∧ value.getLast? = some ']' then
    .varr ((splitOnChar ',' ((value.drop 1).dropLast)).map
      (fun s => .vstr (stripEdgeQuotes (jsTrim s))))
  else if value = str "true" then .vbool true
  else if value = str "false" then .vbool false
  else if decide (value ≠ []) && isNumericJS value then
    match jsNumber value with
    | some (.fin m e) => .vnum m e
    | some (.inf b) => .vinf b
    | none => .vstr (stripEdgeQuotes value)
  else .vstr (stripEdgeQuotes value)

/-- One frontmatter line against `/^\s*([^:]+):\s*(.*)$/` (line 100): the
greedy `[^:]+` needs at least one character before the first colon; key
and value are then trimmed. -/
def parseFmLine (line : List Char) : Option (List Char × YamlValue) :=
  match line.findIdx? (fun c => c = ':') with
  | none => none
  | some i =>
      if i = 0 then none
      else some (jsTrim (line.take i),
        coerceFmValue (jsTrim (line.drop (i + 1))))

def parseFmRaw (fmRaw : List Char) : List (List Char × YamlValue) :=
  (splitOnChar '\n' fmRaw).foldl (fun acc line =>
    match parseFmLine line with
    | none => acc
    | some (k, v) => objInsert acc k v) []

/-- `[a-zA-Z0-9_-]`, the tag character class of line 152. -/
def isTagChar (c : Char) : Bool :=
  ('a' ≤ c && c ≤ 'z') || ('A' ≤ c && c ≤ 'Z') ||
  ('0' ≤ c && c ≤ '9') || c = '_' || c = '-'

/-- The global scan `matchAll(/#([a-zA-Z0-9_-]+)/g)`, fuel-driven so the
kernel can evaluate it; `l.length` fuel always suffices since every step
consumes at least one character. -/
def hashTagsF : Nat → List Char → List (List Char)
  | 0, _ => []
  | _ + 1, [] => []
  | f + 1, c :: rest =>
      if c = '#' then
        match rest.takeWhile isTagChar with
        | [] => hashTagsF f rest
        | run => run :: hashTagsF f (rest.drop run.length)
      else hashTagsF f rest

def hashTags (l : List Char) : List (List Char) := hashTagsF l.length l

/-- JavaScript truthiness of a parsed frontmatter value, as tested by
`if (analysis.frontmatter.tags)` on line 160. -/
def truthy : YamlValue → Bool
  | .vstr s => decide (s ≠ [])
  | .vbool b => b
  | .vnull => false
  | .vnum m _ => decide (m ≠ 0)
  | .vinf _ => true
  | .varr _ => true

/-- `Array.isArray(tags) ? tags : [tags]` (lines 161-163): a non-array
`tags` value is wrapped whole, not split. -/
def fmTagList : YamlValue → List YamlValue
  | .varr items => items
  | v => [v]

/-- `if (!analysis.tags.includes(t)) analysis.tags.push(t)`. -/
def pushUnique (acc : List YamlValue) (t : YamlValue) : List YamlValue :=
  if acc.contains t then acc else acc ++ [t]

def fmOf (content : List Char) : List (List Char × YamlValue) :=
  match fenceSplit content with
  | some (fmRaw, _) => parseFmRaw fmRaw
  | none => []

def bodyOf (content : List Char) : List Char :=
  match fenceSplit content with
  | some (_, rest) => rest
  | none => content

/-- The `tags` values the frontmatter loop (lines 160-168) walks: nothing
when the key is absent or its value falsy, else the array's elements or
the wrapped scalar. -/
def fmTagContrib (content : List Char) : List YamlValue :=
  match objLookup (fmOf content) (str "tags") with
  | some v => if truthy v then fmTagList v else []
  | none => []

/-- The tag pipeline of `FileUtils.analyzeMarkdownFile`
(src/src/utils/file-utils.js lines 151-168): inline hashtags of the
fence-stripped body pushed with deduplication, then the frontmatter tags
contribution pushed with deduplication. -/
def analyzeTags (content : List Char) : List YamlValue :=
  (fmTagContrib content).foldl pushUnique
    (((hashTags (bodyOf content)).map (fun s => YamlValue.vstr s)).foldl
      pushUnique [])
theorem pushUnique_nodup (acc : List YamlValue) (t : YamlValue)
    (h : acc.Nodup) : (pushUnique acc t).Nodup := by
  unfold pushUnique
  cases hc : acc.contains t with
  | true => rw [if_pos rfl]; exact h
  | false =>
      rw [if_neg (by simp)]
      have ht : t ∉ acc := by simpa using hc
      simp [List.nodup_append, h, ht]

theorem pushUnique_mem (acc : List YamlValue) (t x : YamlValue) :
    x ∈ pushUnique acc t ↔ x ∈ acc ∨ x = t := by
  unfold pushUnique
  cases hc : acc.contains t with
  | true =>
      rw [if_pos rfl]
      have ht : t ∈ acc := by simpa using hc
      constructor
      · exact Or.inl
      · rintro (h | rfl)
        · exact h
        · exact ht
  | false =>
      rw [if_neg (by simp)]
      simp

theorem foldl_pushUnique_nodup : ∀ (l acc : List YamlValue), acc.Nodup →
    (l.foldl pushUnique acc).Nodup
  | [], _, h => h
  | t :: rest, acc, h => by
      rw [List.foldl_cons]
      exact foldl_pushUnique_nodup rest _ (pushUnique_nodup acc t h)

theorem foldl_pushUnique_mem : ∀ (l acc : List YamlValue) (x : YamlValue),
    x ∈ l.foldl pushUnique acc ↔ x ∈ acc ∨ x ∈ l
  | [], acc, x => by simp
  | t :: rest, acc, x => by
      rw [List.foldl_cons, foldl_pushUnique_mem rest _ x, pushUnique_mem]
      simp only [List.mem_cons]
      constructor
      · rintro ((h | h) | h)
        · exact Or.inl h
        · exact Or.inr (Or.inl h)
        · exact Or.inr (Or.inr h)
      · rintro (h | h | h)
        · exact Or.inl (Or.inl h)
        · exact Or.inl (Or.inr h)
        · exact Or.inr h

/-- **C6** (counterexample): with frontmatter `tags: a, b` — a
string-valued tags entry — the extracted tag list is the single tag
`a, b`: the string is wrapped whole by `[analysis.frontmatter.tags]`
(src/src/utils/file-utils.js lines 161-163), not split on commas into
`a` and `b` as the claim describes. -/
theorem c6_string_tags_not_split :
    analyzeTags (str "---\ntags: a, b\n---\nbody") =
      [.vstr (str "a, b")] ∧
    YamlValue.vstr (str "a") ∉ analyzeTags (str "---\ntags: a, b\n---\nbody") ∧
    YamlValue.vstr (str "b") ∉ analyzeTags (str "---\ntags: a, b\n---\nbody") := by
  decide

/-- **C6** (amended): the extracted tag list is duplicate-free and holds
exactly the union of the inline hashtag matches of the fence-stripped
body and the frontmatter tags contribution, where an array-valued `tags`
entry contributes its elements but a string-valued entry contributes the
whole string (no comma split); the claim's array-valued scenario —
body `content with #tag1 and #tag2` with frontmatter
`tags: ["tag2", "tag3"]` — does yield the set `{tag1, tag2, tag3}`. -/
theorem analyzeTags_dedup_union (content : List Char) :
    (analyzeTags content).Nodup ∧
    (∀ t, t ∈ analyzeTags content ↔
      t ∈ (hashTags (bodyOf content)).map (fun s => YamlValue.vstr s) ∨
        t ∈ fmTagContrib content) ∧
    analyzeTags
        (str "---\ntags: [\"tag2\", \"tag3\"]\n---\ncontent with #tag1 and #tag2") =
      [.vstr (str "tag1"), .vstr (str "tag2"), .vstr (str "tag3")] := by
  refine ⟨?_, ?_, by decide⟩
  · exact foldl_pushUnique_nodup _ _ (foldl_pushUnique_nodup _ _ List.nodup_nil)
  · intro t
    unfold analyzeTags
    rw [foldl_pushUnique_mem, foldl_pushUnique_mem]
    simp only [List.not_mem_nil, false_or]
/-- The file stats `addMissingProperties` reads, with
`toISOString().split('T')[0]` already applied: `none` covers both a null
stats object and a missing timestamp. -/
structure FileStats where
  birthtime : Option (List Char)
  mtime : Option (List Char)

/-- Truthiness of `obj.key` in JavaScript: `false` when the key is absent
(`undefined`) and otherwise the value's own truthiness. -/
def lookupTruthy (m : List (List Char × YamlValue)) (k : List Char) : Bool :=
  match objLookup m k with
  | some v => truthy v
  | none => false

/-- One `if (!updated.key && source) { updated.key = v; additions.push }`
block of `PropertyManager.addMissingProperties` (src/unnamed/part_002
lines 299-314). -/
def amStep (fm : List (List Char × YamlValue))
    (adds : List (List Char × YamlValue)) (key : List Char)
    (newVal : Option YamlValue) :
    List (List Char × YamlValue) × List (List Char × YamlValue) :=
  if !lookupTruthy fm key then
    match newVal with
    | some v => (objInsert fm key v, adds ++ [(key, v)])
    | none => (fm, adds)
  else (fm, adds)

/-- State after the created-date block (src/unnamed/part_002 lines
299-302). -/
def amCreated (fm : List (List Char × YamlValue)) (stats : FileStats) :
    List (List Char × YamlValue) × List (List Char × YamlValue) :=
  amStep fm [] (str "created")
    (stats.birthtime.map (fun d => YamlValue.vstr d))

/-- State after the modified-date block (lines 305-308). -/
def amModified (fm : List (List Char × YamlValue)) (stats : FileStats) :
    List (List Char × YamlValue) × List (List Char × YamlValue) :=
  amStep (amCreated fm stats).1 (amCreated fm stats).2 (str "modified")
    (stats.mtime.map (fun d => YamlValue.vstr d))

/-- `PropertyManager.addMissingProperties` (src/unnamed/part_002 lines
294-317): the three guarded blocks in order, returning the updated
frontmatter and the additions list. -/
def addMissingProperties (fm : List (List Char × YamlValue))
    (stats : FileStats) :
    List (List Char × YamlValue) × List (List Char × YamlValue) :=
  amStep (amModified fm stats).1 (amModified fm stats).2 (str "tags")
    (some (.varr []))

theorem amStep_lookup_other (fm adds : List (List Char × YamlValue))
    (key : List Char) (nv : Option YamlValue) (k2 : List Char)
    (h : k2 ≠ key) :
    objLookup (amStep fm adds key nv).1 k2 = objLookup fm k2 := by
  unfold amStep
  cases ht : lookupTruthy fm key with
  | true => rw [if_neg (by simp)]
  | false =>
      rw [if_pos (by simp)]
      cases nv with
      | none => rfl
      | some v => exact objLookup_insert_other fm key k2 v h

theorem amStep_truthy_id (fm adds : List (List Char × YamlValue))
    (key : List Char) (nv : Option YamlValue)
    (h : lookupTruthy fm key = true) : amStep fm adds key nv = (fm, adds) := by
  unfold amStep
  rw [h]
  rfl

theorem amStep_falsy (fm adds : List (List Char × YamlValue))
    (key : List Char) (v : YamlValue)
    (h : lookupTruthy fm key = false) :
    amStep fm adds key (some v) =
      (objInsert fm key v, adds ++ [(key, v)]) := by
  unfold amStep
  rw [h]
  rfl

theorem amStep_adds_from (fm adds : List (List Char × YamlValue))
    (key : List Char) (nv : Option YamlValue) :
    ∀ p ∈ (amStep fm adds key nv).2, p ∈ adds ∨ p.1 = key := by
  unfold amStep
  cases ht : lookupTruthy fm key with
  | true =>
      rw [if_neg (by simp)]
      exact fun p hp => Or.inl hp
  | false =>
      rw [if_pos (by simp)]
      cases nv with
      | none => exact fun p hp => Or.inl hp
      | some v =>
          intro p hp
          rcases List.mem_append.mp hp with h1 | h1
          · exact Or.inl h1
          · simp only [List.mem_singleton] at h1
            rw [h1]
            exact Or.inr rfl

theorem amStep_truthy_other (fm adds : List (List Char × YamlValue))
    (key : List Char) (nv : Option YamlValue) (k2 : List Char)
    (h : k2 ≠ key) :
    lookupTruthy (amStep fm adds key nv).1 k2 = lookupTruthy fm k2 := by
  unfold lookupTruthy
  rw [amStep_lookup_other fm adds key nv k2 h]
theorem amStep_adds_mono (fm adds : List (List Char × YamlValue))
    (key : List Char) (nv : Option YamlValue)
    (p : List Char × YamlValue) (h : p ∈ adds) :
    p ∈ (amStep fm adds key nv).2 := by
  unfold amStep
  cases ht : lookupTruthy fm key with
  | true =>
      rw [if_neg (by simp)]
      exact h
  | false =>
      rw [if_pos (by simp)]
      cases nv with
      | none => exact h
      | some v => exact List.mem_append.mpr (Or.inl h)

theorem amModified_tags_lookup (fm : List (List Char × YamlValue))
    (stats : FileStats) :
    objLookup (amModified fm stats).1 (str "tags") =
      objLookup fm (str "tags") := by
  unfold amModified amCreated
  rw [amStep_lookup_other _ _ _ _ _ (by decide),
    amStep_lookup_other _ _ _ _ _ (by decide)]

theorem amModified_tags_truthy (fm : List (List Char × YamlValue))
    (stats : FileStats) :
    lookupTruthy (amModified fm stats).1 (str "tags") =
      lookupTruthy fm (str "tags") := by
  unfold lookupTruthy
  rw [amModified_tags_lookup]

/-- **C9** (counterexample): with `tags` present but holding the falsy
empty string, `addMissingProperties` overwrites the entry with an empty
array and records a `tags` addition — `if (!updated.tags)` tests
truthiness, not key presence, so the claim's "present with any value,
including an empty string" case fails. -/
theorem c9_falsy_tags_overwritten :
    (objLookup [(str "tags", YamlValue.vstr [])] (str "tags")).isSome = true ∧
    (addMissingProperties [(str "tags", YamlValue.vstr [])]
        ⟨none, none⟩).1 = [(str "tags", YamlValue.varr [])] ∧
    (addMissingProperties [(str "tags", YamlValue.vstr [])]
        ⟨none, none⟩).2 = [(str "tags", YamlValue.varr [])] := by
  decide

/-- **C9** (amended): the guards test truthiness, not presence. A `tags`
entry with a truthy value (any nonempty string, any array — including the
empty array —, any nonzero number) survives unchanged with no addition
recorded, and an empty `tags` array is added when the key is absent — but
also whenever the present value is falsy (empty string, `0`, `false`,
`null`), overwriting it. `created` is likewise kept only when truthy, and
is set from the file's birth time when absent or falsy; `modified`
behaves the same. -/
theorem addMissingProperties_truthiness (fm : List (List Char × YamlValue))
    (stats : FileStats) :
    (lookupTruthy fm (str "tags") = true →
      objLookup (addMissingProperties fm stats).1 (str "tags") =
        objLookup fm (str "tags") ∧
      ∀ v, (str "tags", v) ∉ (addMissingProperties fm stats).2) ∧
    (lookupTruthy fm (str "tags") = false →
      objLookup (addMissingProperties fm stats).1 (str "tags") =
        some (.varr []) ∧
      (str "tags", YamlValue.varr []) ∈ (addMissingProperties fm stats).2) ∧
    (lookupTruthy fm (str "created") = true →
      objLookup (addMissingProperties fm stats).1 (str "created") =
        objLookup fm (str "created")) ∧
    (∀ d, stats.birthtime = some d →
      lookupTruthy fm (str "created") = false →
      objLookup (addMissingProperties fm stats).1 (str "created") =
        some (.vstr d) ∧
      (str "created", YamlValue.vstr d) ∈ (addMissingProperties fm stats).2) := by
  refine ⟨?_, ?_, ?_, ?_⟩
  · intro h
    unfold addMissingProperties
    rw [amStep_truthy_id _ _ _ _ ((amModified_tags_truthy fm stats).trans h)]
    refine ⟨amModified_tags_lookup fm stats, ?_⟩
    intro v hv
    rcases amStep_adds_from (amCreated fm stats).1 (amCreated fm stats).2
      (str "modified") (stats.mtime.map (fun d => YamlValue.vstr d))
      (str "tags", v) hv with h1 | h1
    · rcases amStep_adds_from fm [] (str "created")
        (stats.birthtime.map (fun d => YamlValue.vstr d))
        (str "tags", v) h1 with h2 | h2
      · simp at h2
      · have h3 : str "tags" = str "created" := h2
        exact absurd h3 (by decide)
    · have h3 : str "tags" = str "modified" := h1
      exact absurd h3 (by decide)
  · intro h
    unfold addMissingProperties
    rw [amStep_falsy _ _ _ _ ((amModified_tags_truthy fm stats).trans h)]
    refine ⟨objLookup_insert_self _ _ _, ?_⟩
    simp
  · intro h
    unfold addMissingProperties
    rw [amStep_lookup_other _ _ _ _ _ (by decide)]
    unfold amModified
    rw [amStep_lookup_other _ _ _ _ _ (by decide)]
    unfold amCreated
    rw [amStep_truthy_id _ _ _ _ h]
  · intro d hd h
    have h1 : amCreated fm stats =
        (objInsert fm (str "created") (.vstr d),
          [(str "created", YamlValue.vstr d)]) := by
      unfold amCreated
      rw [hd]
      exact amStep_falsy fm [] (str "created") (YamlValue.vstr d) h
    constructor
    · unfold addMissingProperties
      rw [amStep_lookup_other _ _ _ _ _ (by decide)]
      unfold amModified
      rw [amStep_lookup_other _ _ _ _ _ (by decide), h1]
      exact objLookup_insert_self _ _ _
    · unfold addMissingProperties
      apply amStep_adds_mono
      unfold amModified
      apply amStep_adds_mono
      rw [h1]
      simp
